import Mathlib

/-!
Verification of the mipsmatch code-matching engine against its design
specification.

The definitions below are a shallow embedding of the Rust sources:

* `src/arch/mips.rs` — byte-order decoders, the instruction normalizer and
  the binary-format sniffer;
* `src/rk.rs` — the Rabin–Karp rolling hasher (`RabinKarpMIPSHasher`);
* `src/scan.rs` — the word-level rolling search, the address-space claim
  check and the RODATA locator;
* `src/fingerprint.rs` — the trimming fingerprint of a byte range, the
  per-object hashing of text symbols, and the textual `FingerprintV0` form.

Machine integers (`u32`, `u64`, `usize`) are modelled as `Nat`; wherever the
Rust code can wrap (release-mode `usize` subtraction) the wrap is written out
explicitly as arithmetic modulo `2 ^ 64`.  Byte slices are `List Nat` with
each element below 256.  Rust `chunks(4)` may end with a partial chunk on
which the word decoders panic by indexing out of bounds; the embedding keeps
only the complete chunks, and every claim below constrains lengths to
multiples of four, where the two behaviours agree.
-/

/-- The MIPS CPU family tag (`MIPSFamily` in `src/lib.rs`). -/
inductive MIPSFamily where
  | R3000GTE
  | R4000
  | R4000Allegrex
  | R5900
  deriving DecidableEq, Repr

/-- Little-endian decoder `le_bytes_to_u32` (`src/arch/mips.rs`): shifts and
ors of the first four bytes of the slice.  The Rust function panics when the
slice is shorter than four bytes; those inputs never arise below. -/
def le_bytes_to_u32 : List Nat → Nat
  | b0 :: b1 :: b2 :: b3 :: _ =>
      (b3 <<< 24) ||| ((b2 <<< 16) ||| ((b1 <<< 8) ||| b0))
  | _ => 0

/-- Big-endian decoder `be_bytes_to_u32` (`src/arch/mips.rs`). -/
def be_bytes_to_u32 : List Nat → Nat
  | b0 :: b1 :: b2 :: b3 :: _ =>
      (b0 <<< 24) ||| ((b1 <<< 16) ||| ((b2 <<< 8) ||| b3))
  | _ => 0

/-- Byte-swapped big-endian decoder `bs_bytes_to_u32` (`src/arch/mips.rs`). -/
def bs_bytes_to_u32 : List Nat → Nat
  | b0 :: b1 :: b2 :: b3 :: _ =>
      (b1 <<< 24) ||| ((b0 <<< 16) ||| ((b3 <<< 8) ||| b2))
  | _ => 0

/-- Byte-swapped little-endian decoder `ls_bytes_to_u32` (`src/arch/mips.rs`). -/
def ls_bytes_to_u32 : List Nat → Nat
  | b0 :: b1 :: b2 :: b3 :: _ =>
      (b2 <<< 24) ||| ((b3 <<< 16) ||| ((b0 <<< 8) ||| b1))
  | _ => 0

/-- `normalize_instruction` (`src/arch/mips.rs`): clear the operand bits that
a linker could rewrite.  Dispatch is on the primary opcode `word >> 26`:
R-type (opcode 0) words are kept whole, J-type (opcodes 2 and 3) keep only
the opcode, and everything else keeps the upper sixteen bits.  The `family`
argument is unused by the dispatch, exactly as in the source (the
`rabbitizer` decode it feeds is discarded). -/
def normalize_instruction (instruction : Nat) (family : MIPSFamily) : Nat :=
  if instruction >>> 26 = 0 then instruction
  else if instruction >>> 26 = 2 ∨ instruction >>> 26 = 3 then
    instruction &&& 0xFC000000
  else instruction &&& 0xFFFF0000

/-- `bytes_to_normalized_instruction` (`src/arch/mips.rs`): decode a word in
the family's native byte order (R4000 is big-endian, the rest little-endian)
and normalize it. -/
def bytes_to_normalized_instruction (bytes : List Nat) (family : MIPSFamily) : Nat :=
  let instruction :=
    if family = MIPSFamily.R4000 then be_bytes_to_u32 bytes
    else le_bytes_to_u32 bytes
  normalize_instruction instruction family

/-- `read_word` (`src/arch/mips.rs`): native-endian decode without
normalization. -/
def read_word (bytes : List Nat) (family : MIPSFamily) : Nat :=
  if family = MIPSFamily.R4000 then be_bytes_to_u32 bytes
  else le_bytes_to_u32 bytes

/-- The complete four-byte chunks of a byte list, in order: the aligned part
of Rust's `bytes.chunks(4)` stream. -/
def chunks4 : List Nat → List (List Nat)
  | b0 :: b1 :: b2 :: b3 :: rest => [b0, b1, b2, b3] :: chunks4 rest
  | _ => []

/-- The normalized instruction words of a byte stream: `chunks(4)` mapped
through `bytes_to_normalized_instruction`, as both `rk.rs` and `scan.rs`
build them. -/
def toWords (family : MIPSFamily) (bytes : List Nat) : List Nat :=
  (chunks4 bytes).map (fun chunk => bytes_to_normalized_instruction chunk family)

-- Bitwise helper facts ------------------------------------------------------

theorem nat_and_shiftRight (x y n : Nat) :
    (x &&& y) >>> n = (x >>> n) &&& (y >>> n) := by
  apply Nat.eq_of_testBit_eq
  intro i
  simp [Nat.testBit_shiftRight, Nat.testBit_and]

theorem shiftRight26_lt (w : Nat) (hw : w < 2 ^ 32) : w >>> 26 < 64 := by
  rw [Nat.shiftRight_eq_div_pow]
  have : w < 64 * 2 ^ 26 := by norm_num at hw ⊢; omega
  exact Nat.div_lt_of_lt_mul (by omega)

theorem and_63_of_lt (a : Nat) (ha : a < 64) : a &&& 63 = a := by
  have h : (63 : Nat) = 2 ^ 6 - 1 := by norm_num
  rw [h, Nat.and_pow_two_sub_one_eq_mod]
  exact Nat.mod_eq_of_lt (by norm_num at ha ⊢; omega)

/-- Masking with the J-type mask preserves the primary opcode. -/
theorem opcode_and_FC (w : Nat) (hw : w < 2 ^ 32) :
    (w &&& 0xFC000000) >>> 26 = w >>> 26 := by
  rw [nat_and_shiftRight]
  have h : (0xFC000000 : Nat) >>> 26 = 63 := by decide
  rw [h, and_63_of_lt _ (shiftRight26_lt w hw)]

/-- Masking with the I-type mask preserves the primary opcode. -/
theorem opcode_and_FFFF (w : Nat) (hw : w < 2 ^ 32) :
    (w &&& 0xFFFF0000) >>> 26 = w >>> 26 := by
  rw [nat_and_shiftRight]
  have h : (0xFFFF0000 : Nat) >>> 26 = 63 := by decide
  rw [h, and_63_of_lt _ (shiftRight26_lt w hw)]

-- C2: the three normalization branches and bit preservation ------------------

/-- **C2.** For every 32-bit word and every MIPS family, `normalize_instruction`
returns the word unchanged when the primary opcode (`word >> 26`) is 0,
returns `word &&& 0xFC000000` when the opcode is 2 or 3, and returns
`word &&& 0xFFFF0000` otherwise; in the masking branches every bit kept by
the mask (every bit outside the cleared region) equals the input word's
corresponding bit, and in the opcode-0 branch all bits are preserved. -/
theorem normalize_instruction_branches (w : Nat) (f : MIPSFamily) :
    (w >>> 26 = 0 → normalize_instruction w f = w) ∧
    ((w >>> 26 = 2 ∨ w >>> 26 = 3) →
      normalize_instruction w f = w &&& 0xFC000000 ∧
      ∀ i, (0xFC000000 : Nat).testBit i = true →
        (normalize_instruction w f).testBit i = w.testBit i) ∧
    ((w >>> 26 ≠ 0 ∧ w >>> 26 ≠ 2 ∧ w >>> 26 ≠ 3) →
      normalize_instruction w f = w &&& 0xFFFF0000 ∧
      ∀ i, (0xFFFF0000 : Nat).testBit i = true →
        (normalize_instruction w f).testBit i = w.testBit i) := by
  refine ⟨fun h0 => ?_, fun h23 => ?_, fun hI => ?_⟩
  · simp [normalize_instruction, h0]
  · have hne : ¬ w >>> 26 = 0 := by rcases h23 with h | h <;> omega
    have heq : normalize_instruction w f = w &&& 0xFC000000 := by
      simp [normalize_instruction, hne, h23]
    refine ⟨heq, fun i hi => ?_⟩
    rw [heq, Nat.testBit_and, hi, Bool.and_true]
  · obtain ⟨h0, h2, h3⟩ := hI
    have heq : normalize_instruction w f = w &&& 0xFFFF0000 := by
      have : ¬ (w >>> 26 = 2 ∨ w >>> 26 = 3) := by omega
      simp [normalize_instruction, h0, this]
    refine ⟨heq, fun i hi => ?_⟩
    rw [heq, Nat.testBit_and, hi, Bool.and_true]

/-- Witness for C2 at concrete inputs covering all three branches
(the spec's §8 normalization table). -/
theorem normalize_instruction_branches_witness :
    normalize_instruction 0x00010203 MIPSFamily.R3000GTE = 0x00010203 ∧
    normalize_instruction 0x0C010203 MIPSFamily.R3000GTE = 0x0C010203 &&& 0xFC000000 ∧
    normalize_instruction 0xF0010203 MIPSFamily.R3000GTE = 0xF0010203 &&& 0xFFFF0000 := by
  refine ⟨?_, ?_, ?_⟩
  · exact (normalize_instruction_branches 0x00010203 MIPSFamily.R3000GTE).1 (by decide)
  · exact ((normalize_instruction_branches 0x0C010203 MIPSFamily.R3000GTE).2.1
      (Or.inr (by decide))).1
  · exact ((normalize_instruction_branches 0xF0010203 MIPSFamily.R3000GTE).2.2
      (by refine ⟨by decide, by decide, by decide⟩)).1

-- C10: normalization is idempotent -------------------------------------------

/-- **C10.** Normalization is idempotent for 32-bit words: every masking
branch preserves the primary opcode bits that select the branch, so applying
`normalize_instruction` twice equals applying it once. -/
theorem normalize_instruction_idempotent (w : Nat) (f : MIPSFamily)
    (hw : w < 2 ^ 32) :
    normalize_instruction (normalize_instruction w f) f =
      normalize_instruction w f := by
  by_cases h0 : w >>> 26 = 0
  · simp [normalize_instruction, h0]
  · by_cases h23 : w >>> 26 = 2 ∨ w >>> 26 = 3
    · have hmask : normalize_instruction w f = w &&& 0xFC000000 := by
        simp [normalize_instruction, h0, h23]
      have hop : (w &&& 0xFC000000) >>> 26 = w >>> 26 := opcode_and_FC w hw
      rw [hmask]
      have hne0 : ¬ (w &&& 0xFC000000) >>> 26 = 0 := by rw [hop]; exact h0
      have h23' : (w &&& 0xFC000000) >>> 26 = 2 ∨ (w &&& 0xFC000000) >>> 26 = 3 := by
        rw [hop]; exact h23
      simp only [normalize_instruction, if_neg hne0, if_pos h23']
      rw [Nat.and_assoc, Nat.and_self]
    · have hmask : normalize_instruction w f = w &&& 0xFFFF0000 := by
        simp [normalize_instruction, h0, h23]
      have hop : (w &&& 0xFFFF0000) >>> 26 = w >>> 26 := opcode_and_FFFF w hw
      rw [hmask]
      have hne0 : ¬ (w &&& 0xFFFF0000) >>> 26 = 0 := by rw [hop]; exact h0
      have hne23 : ¬ ((w &&& 0xFFFF0000) >>> 26 = 2 ∨ (w &&& 0xFFFF0000) >>> 26 = 3) := by
        rw [hop]; exact h23
      simp only [normalize_instruction, if_neg hne0, if_neg hne23]
      rw [Nat.and_assoc, Nat.and_self]

/-- Witness for C10 at a concrete I-type word. -/
theorem normalize_instruction_idempotent_witness :
    normalize_instruction (normalize_instruction 0xF0010203 MIPSFamily.R5900)
      MIPSFamily.R5900 = normalize_instruction 0xF0010203 MIPSFamily.R5900 :=
  normalize_instruction_idempotent 0xF0010203 MIPSFamily.R5900 (by norm_num)

-- Rabin-Karp hashing (src/rk.rs) ---------------------------------------------

/-- `RabinKarpMIPSHasher::DEFAULT_RADIX` (`src/rk.rs`), also the default
`Options.radix` (`src/lib.rs`): `2 ^ 32`. -/
def RK_RADIX : Nat := 0x0000000100000000

/-- `RabinKarpMIPSHasher::DEFAULT_MODULUS` (`src/rk.rs`), also the default
`Options.modulus` (`src/lib.rs`). -/
def RK_MODULUS : Nat := 0x00000000FFFFFFEF

/-- The free function `horner_hash` (`src/rk.rs`): one Horner step of the
rolling hash. -/
def horner_hash (acc s radix q : Nat) : Nat :=
  ((radix * acc) + s) % q

/-- The Horner fold of a list of already-normalized words starting from
accumulator 0 with the hasher's fixed radix: the hash of a window of words. -/
def wordsHash (q : Nat) (ws : List Nat) : Nat :=
  ws.foldl (fun acc w => horner_hash acc w RK_RADIX q) 0

/-- `RabinKarpMIPSHasher::hash_be_mips_bytes` (`src/rk.rs`): fold the
normalized words of the byte stream into the accumulator.  The source panics
on a misaligned block; all uses below are aligned. -/
def RabinKarpMIPSHasher.hash_be_mips_bytes (q : Nat) (family : MIPSFamily)
    (hash : Nat) (bytes : List Nat) : Nat :=
  ((chunks4 bytes).map (fun ins => bytes_to_normalized_instruction ins family)).foldl
    (fun acc masked_ins => horner_hash acc masked_ins RK_RADIX q) hash

/-- The slide phase of `RabinKarpMIPSHasher::find` (`src/rk.rs`): the zip of
the words after the initial window with the words from the start of the
haystack, mapped statefully through the roll update, and `position`-ed on
equality with the needle hash. -/
def rkSlide (q rm needle : Nat) : Nat → List Nat → List Nat → Option Nat
  | _, [], _ => none
  | _, _ :: _, [] => none
  | hash, nw :: ns, fw :: fs =>
    let h1 := (hash + q - (rm * fw) % q) % q
    let h2 := horner_hash h1 nw RK_RADIX q
    if h2 = needle then some 0
    else (rkSlide q rm needle h2 ns fs).map (fun pos => pos + 1)

/-- `RabinKarpMIPSHasher::find` (`src/rk.rs`): return `none` when the needle
is longer than the haystack, offset 0 for an empty needle or an immediate
match, and otherwise roll one word at a time, answering `4 * (pos + 1)` for
the first rolled position whose accumulator equals the needle hash. -/
def RabinKarpMIPSHasher.find (q : Nat) (family : MIPSFamily)
    (needle size : Nat) (bytes : List Nat) : Option Nat :=
  if size > bytes.length then none
  else if size = 0 then some 0
  else
    let hash0 := RabinKarpMIPSHasher.hash_be_mips_bytes q family 0 (bytes.take size)
    if hash0 = needle then some 0
    else
      let rm := (List.range (size / 4 - 1)).foldl (fun r _ => (RK_RADIX * r) % q) 1
      match rkSlide q rm needle hash0 (toWords family (bytes.drop size))
          (toWords family bytes) with
      | some pos => some ((pos + 1) * 4)
      | none => none

-- The scanner's rolling search (src/scan.rs) ---------------------------------

/-- The second `while` loop of `find` in `src/scan.rs`: starting from the
hash of the current window (`count` words ending just before index `i`),
roll forward one word at a time until the hash equals the fingerprint or `i`
reaches `endI`; answer `4 * (i - count)` on success.  Out-of-range reads
(which would panic in Rust) are modelled with `getD`; every use below stays
in bounds. -/
def scanLoop (radix q rm fingerprint count endI : Nat) (instructions : List Nat)
    (hash i : Nat) : Option Nat :=
  if hash = fingerprint then some ((i - count) * 4)
  else if h : i < endI then
    let h1 := (hash + q - (rm * instructions.getD (i - count) 0) % q) % q
    let h2 := ((radix * h1) + instructions.getD i 0) % q
    scanLoop radix q rm fingerprint count endI instructions h2 (i + 1)
  else none
termination_by endI - i
decreasing_by omega

/-- `find` (`src/scan.rs`): the scanner's word-level rolling search between
word indices `start` and `endI`.  The first loop accumulates
`min size (endI - start)` words; the search then bails out with `none` when
`i` has reached the end of `instructions`, and otherwise rolls forward. -/
def scan_find (fingerprint size : Nat) (instructions : List Nat)
    (start endI : Nat) (radix q : Nat) : Option Nat :=
  let rm := (List.range (size - 1)).foldl (fun r _ => (radix * r) % q) 1
  let count := min size (endI - start)
  let hash := ((instructions.drop start).take count).foldl
    (fun h w => ((radix * h) + w) % q) 0
  let i := start + count
  if i ≥ instructions.length then none
  else scanLoop radix q rm fingerprint count endI instructions hash i

-- Modular-arithmetic correspondence for the rolling hash ----------------------

/-- The Horner fold carried out in `ZMod q`. -/
def zHash (q : Nat) (acc : ZMod q) (ws : List Nat) : ZMod q :=
  ws.foldl (fun a w => (RK_RADIX : ZMod q) * a + (w : ZMod q)) acc

theorem zHash_nil (q : Nat) (acc : ZMod q) : zHash q acc [] = acc := rfl

theorem zHash_cons (q : Nat) (acc : ZMod q) (w : Nat) (ws : List Nat) :
    zHash q acc (w :: ws) = zHash q ((RK_RADIX : ZMod q) * acc + (w : ZMod q)) ws := rfl

theorem zHash_append_singleton (q : Nat) (acc : ZMod q) (ws : List Nat) (v : Nat) :
    zHash q acc (ws ++ [v]) = (RK_RADIX : ZMod q) * zHash q acc ws + (v : ZMod q) := by
  simp [zHash, List.foldl_append]

theorem zHash_acc (q : Nat) (ws : List Nat) : ∀ acc : ZMod q,
    zHash q acc ws = (RK_RADIX : ZMod q) ^ ws.length * acc + zHash q 0 ws := by
  induction ws with
  | nil => intro acc; simp [zHash_nil]
  | cons w ws ih =>
    intro acc
    rw [zHash_cons, ih, zHash_cons, ih ((RK_RADIX : ZMod q) * 0 + (w : ZMod q))]
    simp [List.length_cons, pow_succ]
    ring

theorem cast_foldl_horner (q : Nat) (ws : List Nat) : ∀ acc : Nat,
    ((ws.foldl (fun a w => horner_hash a w RK_RADIX q) acc : Nat) : ZMod q) =
      zHash q (acc : ZMod q) ws := by
  induction ws with
  | nil => intro acc; simp [zHash_nil]
  | cons w ws ih =>
    intro acc
    rw [List.foldl_cons, ih, zHash_cons]
    congr 1
    unfold horner_hash
    rw [ZMod.natCast_mod]
    push_cast
    ring

theorem wordsHash_cast (q : Nat) (ws : List Nat) :
    ((wordsHash q ws : Nat) : ZMod q) = zHash q 0 ws := by
  simpa using cast_foldl_horner q ws 0

theorem foldl_horner_lt (q : Nat) (hq : 0 < q) :
    ∀ (ws : List Nat) (acc : Nat), ws ≠ [] →
      ws.foldl (fun a w => horner_hash a w RK_RADIX q) acc < q := by
  intro ws
  induction ws with
  | nil => intro acc h; exact absurd rfl h
  | cons w ws ih =>
    intro acc _
    cases ws with
    | nil => simpa [horner_hash] using Nat.mod_lt _ hq
    | cons w2 ws2 => rw [List.foldl_cons]; exact ih _ (by simp)

theorem wordsHash_lt (q : Nat) (hq : 0 < q) (ws : List Nat) (h : ws ≠ []) :
    wordsHash q ws < q :=
  foldl_horner_lt q hq ws 0 h

theorem nat_eq_of_cast_zmod (q a b : Nat) (hq : 0 < q) (ha : a < q) (hb : b < q)
    (h : (a : ZMod q) = (b : ZMod q)) : a = b := by
  haveI : NeZero q := ⟨by omega⟩
  calc a = ((a : Nat) : ZMod q).val := (ZMod.val_cast_of_lt ha).symm
    _ = ((b : Nat) : ZMod q).val := by rw [h]
    _ = b := ZMod.val_cast_of_lt hb

/-- Correctness of the roll update: dropping the head word (via the
precomputed `rm ≡ radix ^ (k - 1)`) and appending a new one turns the hash of
the old window into the hash of the shifted window. -/
theorem roll_eq (q : Nat) (hq : 0 < q) (rm k : Nat)
    (hrm : (rm : ZMod q) = (RK_RADIX : ZMod q) ^ k)
    (fw v : Nat) (t : List Nat) (ht : t.length = k) :
    horner_hash ((wordsHash q (fw :: t) + q - (rm * fw) % q) % q) v RK_RADIX q =
      wordsHash q (t ++ [v]) := by
  have hlt1 : horner_hash ((wordsHash q (fw :: t) + q - (rm * fw) % q) % q) v RK_RADIX q < q :=
    Nat.mod_lt _ hq
  have hlt2 : wordsHash q (t ++ [v]) < q := wordsHash_lt q hq _ (by simp)
  apply nat_eq_of_cast_zmod q _ _ hq hlt1 hlt2
  have hsub : (rm * fw) % q ≤ wordsHash q (fw :: t) + q := by
    have := Nat.mod_lt (rm * fw) hq
    omega
  have hcast1 : (((wordsHash q (fw :: t) + q - (rm * fw) % q) % q : Nat) : ZMod q) =
      ((wordsHash q (fw :: t) : Nat) : ZMod q) - (rm : ZMod q) * (fw : ZMod q) := by
    rw [ZMod.natCast_mod, Nat.cast_sub hsub]
    push_cast [ZMod.natCast_mod, ZMod.natCast_self]
    ring
  unfold horner_hash
  rw [ZMod.natCast_mod]
  push_cast [hcast1]
  rw [wordsHash_cast, wordsHash_cast, hrm]
  have hfwt : zHash q 0 (fw :: t) =
      (RK_RADIX : ZMod q) ^ k * (fw : ZMod q) + zHash q 0 t := by
    rw [zHash_cons, zHash_acc, ht]
    ring_nf
  rw [hfwt, zHash_append_singleton]
  ring

/-- The `rm` precomputation loop reduces to `radix ^ m` in `ZMod q`. -/
theorem rmFold_cast (q m : Nat) :
    (((List.range m).foldl (fun r _ => (RK_RADIX * r) % q) 1 : Nat) : ZMod q) =
      (RK_RADIX : ZMod q) ^ m := by
  induction m with
  | zero => simp
  | succ m ih =>
    rw [List.range_succ, List.foldl_append]
    simp only [List.foldl_cons, List.foldl_nil]
    rw [ZMod.natCast_mod]
    push_cast
    rw [ih]
    ring

-- Structure of the chunk stream ----------------------------------------------

theorem chunks4_cons4 (b0 b1 b2 b3 : Nat) (rest : List Nat) :
    chunks4 (b0 :: b1 :: b2 :: b3 :: rest) = [b0, b1, b2, b3] :: chunks4 rest := rfl

theorem chunks4_short (bytes : List Nat) (h : bytes.length < 4) :
    chunks4 bytes = [] := by
  match bytes with
  | [] => rfl
  | [_] => rfl
  | [_, _] => rfl
  | [_, _, _] => rfl
  | _ :: _ :: _ :: _ :: _ => simp only [List.length_cons] at h; omega

theorem chunks4_length (bytes : List Nat) :
    (chunks4 bytes).length = bytes.length / 4 := by
  match bytes with
  | b0 :: b1 :: b2 :: b3 :: rest =>
    rw [chunks4_cons4, List.length_cons, chunks4_length rest]
    simp only [List.length_cons]
    omega
  | [] => rfl
  | [_] => rw [chunks4_short _ (by simp)]; simp
  | [_, _] => rw [chunks4_short _ (by simp)]; simp
  | [_, _, _] => rw [chunks4_short _ (by simp)]; simp

theorem chunks4_take (n : Nat) : ∀ bytes : List Nat,
    chunks4 (bytes.take (4 * n)) = (chunks4 bytes).take n := by
  induction n with
  | zero => intro bytes; simp [chunks4]
  | succ n ih =>
    intro bytes
    match bytes with
    | b0 :: b1 :: b2 :: b3 :: rest =>
      have h4 : 4 * (n + 1) = ((((4 * n) + 1) + 1) + 1) + 1 := by ring
      rw [h4]
      simp only [List.take_succ_cons]
      rw [chunks4_cons4, chunks4_cons4, List.take_succ_cons, ih rest]
    | [] => simp [chunks4]
    | [b0] =>
      rw [List.take_of_length_le (by simp; omega), chunks4_short _ (by simp)]
      simp
    | [b0, b1] =>
      rw [List.take_of_length_le (by simp; omega), chunks4_short _ (by simp)]
      simp
    | [b0, b1, b2] =>
      rw [List.take_of_length_le (by simp; omega), chunks4_short _ (by simp)]
      simp

theorem chunks4_drop (n : Nat) : ∀ bytes : List Nat,
    chunks4 (bytes.drop (4 * n)) = (chunks4 bytes).drop n := by
  induction n with
  | zero => intro bytes; simp
  | succ n ih =>
    intro bytes
    match bytes with
    | b0 :: b1 :: b2 :: b3 :: rest =>
      have h4 : 4 * (n + 1) = ((((4 * n) + 1) + 1) + 1) + 1 := by ring
      rw [h4]
      simp only [List.drop_succ_cons]
      rw [chunks4_cons4, List.drop_succ_cons, ih rest]
    | [] => simp [chunks4]
    | [b0] =>
      rw [List.drop_of_length_le (by simp; omega), chunks4_short _ (by simp)]
      rfl
    | [b0, b1] =>
      rw [List.drop_of_length_le (by simp; omega), chunks4_short _ (by simp)]
      rfl
    | [b0, b1, b2] =>
      rw [List.drop_of_length_le (by simp; omega), chunks4_short _ (by simp)]
      rfl

theorem toWords_length (fam : MIPSFamily) (bytes : List Nat) :
    (toWords fam bytes).length = bytes.length / 4 := by
  rw [toWords, List.length_map, chunks4_length]

theorem toWords_take (fam : MIPSFamily) (bytes : List Nat) (n : Nat) :
    toWords fam (bytes.take (4 * n)) = (toWords fam bytes).take n := by
  rw [toWords, toWords, chunks4_take, List.map_take]

theorem toWords_drop (fam : MIPSFamily) (bytes : List Nat) (n : Nat) :
    toWords fam (bytes.drop (4 * n)) = (toWords fam bytes).drop n := by
  rw [toWords, toWords, chunks4_drop, List.map_drop]

/-- A byte-aligned window of the haystack corresponds to a word window of its
normalized word stream. -/
theorem toWords_window (fam : MIPSFamily) (H : List Nat) (j k : Nat) :
    toWords fam ((H.drop (4 * j)).take (4 * k)) =
      ((toWords fam H).drop j).take k := by
  rw [toWords_take, toWords_drop]

-- Window shifting ------------------------------------------------------------

theorem window_head (ws : List Nat) (t k : Nat) (hk : 1 ≤ k) (ht : t < ws.length) :
    (ws.drop t).take k = ws[t] :: ((ws.drop (t + 1)).take (k - 1)) := by
  obtain ⟨k0, rfl⟩ : ∃ k0, k = k0 + 1 := ⟨k - 1, by omega⟩
  rw [List.drop_eq_getElem_cons ht, List.take_succ_cons]
  simp

theorem window_last (ws : List Nat) (t k : Nat) (hk : 1 ≤ k)
    (htk : t + k < ws.length) :
    (ws.drop (t + 1)).take k = ((ws.drop (t + 1)).take (k - 1)) ++ [ws[t + k]] := by
  obtain ⟨k0, rfl⟩ : ∃ k0, k = k0 + 1 := ⟨k - 1, by omega⟩
  rw [List.take_succ]
  simp only [Nat.add_sub_cancel]
  congr 1
  have h1 : (ws.drop (t + 1))[k0]? = ws[t + 1 + k0]? := by
    rw [List.getElem?_drop]
  rw [h1]
  have h2 : t + 1 + k0 = t + (k0 + 1) := by omega
  rw [h2, List.getElem?_eq_getElem htk]
  rfl

/-- The window-length invariant used by the slide proofs. -/
theorem window_length (ws : List Nat) (t k : Nat) (htk : t + k ≤ ws.length) :
    ((ws.drop (t + 1)).take (k - 1)).length = k - 1 := by
  rw [List.length_take, List.length_drop]
  omega

-- First-match reference for the rolling searches ------------------------------

/-- Reference first-match semantics shared by `RabinKarpMIPSHasher::find` and
the scanner's `find`: the first window index `i` (among the
`length + 1 - k` complete windows of `k` words) whose Horner hash equals the
needle, scaled by 4 to a byte offset. -/
def refFind (q needle k : Nat) (ws : List Nat) : Option Nat :=
  ((List.range (ws.length + 1 - k)).find?
      (fun i => wordsHash q ((ws.drop i).take k) == needle)).map (fun i => i * 4)

/-- The slide phase of the byte-level Rabin–Karp search visits windows
`t + 1, t + 2, …` in order and answers the relative index of the first whose
hash is the needle. -/
theorem rkSlide_spec (q rm needle k : Nat) (hq : 0 < q) (hk : 1 ≤ k)
    (hrm : (rm : ZMod q) = (RK_RADIX : ZMod q) ^ (k - 1)) (ws : List Nat) :
    ∀ n t, n = ws.length - k - t → t + k ≤ ws.length →
    rkSlide q rm needle (wordsHash q ((ws.drop t).take k)) (ws.drop (t + k)) (ws.drop t) =
      ((List.range' (t + 1) n).find?
          (fun i => wordsHash q ((ws.drop i).take k) == needle)).map
        (fun i => i - (t + 1)) := by
  intro n
  induction n with
  | zero =>
    intro t hn ht
    have hnil : ws.drop (t + k) = [] := List.drop_eq_nil_of_le (by omega)
    rw [hnil]
    simp [rkSlide]
  | succ n ih =>
    intro t hn ht
    have htlt : t < ws.length := by omega
    have htk : t + k < ws.length := by omega
    rw [List.drop_eq_getElem_cons htk, List.drop_eq_getElem_cons htlt]
    have hwt : wordsHash q ((ws.drop t).take k) =
        wordsHash q (ws[t] :: ((ws.drop (t + 1)).take (k - 1))) := by
      rw [window_head ws t k hk htlt]
    have hroll : horner_hash
        ((wordsHash q ((ws.drop t).take k) + q -
          (rm * ws[t]) % q) % q) ws[t + k] RK_RADIX q =
        wordsHash q ((ws.drop (t + 1)).take k) := by
      rw [hwt, roll_eq q hq rm (k - 1) hrm ws[t] ws[t + k] _
        (window_length ws t k (by omega)), ← window_last ws t k hk htk]
    simp only [rkSlide]
    rw [← List.drop_eq_getElem_cons htlt]
    rw [hroll]
    by_cases hmatch : wordsHash q ((ws.drop (t + 1)).take k) = needle
    · rw [if_pos hmatch, List.range'_succ, List.find?_cons_of_pos _ (by simpa using hmatch)]
      simp
    · rw [if_neg hmatch, List.range'_succ, List.find?_cons_of_neg _ (by simpa using hmatch)]
      have hdrop : ws.drop (t + k + 1) = ws.drop ((t + 1) + k) := by
        congr 1
        omega
      have hstep : rkSlide q rm needle (wordsHash q ((ws.drop (t + 1)).take k))
          (ws.drop ((t + 1) + k)) (ws.drop (t + 1)) =
          ((List.range' (t + 2) n).find?
              (fun i => wordsHash q ((ws.drop i).take k) == needle)).map
            (fun i => i - (t + 2)) := ih (t + 1) (by omega) (by omega)
      rw [hdrop, hstep]
      match hfound : (List.range' (t + 2) n).find?
          (fun i => wordsHash q ((ws.drop i).take k) == needle) with
      | none => simp
      | some j =>
        have hj : j ∈ List.range' (t + 2) n := List.mem_of_find?_eq_some hfound
        have hj2 : t + 2 ≤ j := by
          rcases List.mem_range'.mp hj with ⟨i, _, rfl⟩
          omega
        simp only [Option.map_some']
        congr 1
        omega

theorem hash_be_eq_wordsHash (q : Nat) (fam : MIPSFamily) (bytes : List Nat) :
    RabinKarpMIPSHasher.hash_be_mips_bytes q fam 0 bytes =
      wordsHash q (toWords fam bytes) := rfl

/-- `RabinKarpMIPSHasher::find` on aligned input realizes the first-match
semantics over the normalized word stream. -/
theorem rk_find_eq_refFind (q : Nat) (fam : MIPSFamily) (needle size : Nat)
    (bytes : List Nat) (hq : 0 < q) (hs4 : size % 4 = 0) (hpos : 0 < size)
    (hle : size ≤ bytes.length) (h4 : bytes.length % 4 = 0) :
    RabinKarpMIPSHasher.find q fam needle size bytes =
      refFind q needle (size / 4) (toWords fam bytes) := by
  have hN : (toWords fam bytes).length = bytes.length / 4 := toWords_length fam bytes
  set ws := toWords fam bytes with hws
  set k := size / 4 with hkdef
  have hk1 : 1 ≤ k := by omega
  have hkN : k ≤ ws.length := by omega
  have hsize4 : 4 * k = size := by omega
  have hinit : RabinKarpMIPSHasher.hash_be_mips_bytes q fam 0 (bytes.take size) =
      wordsHash q ((ws.drop 0).take k) := by
    rw [hash_be_eq_wordsHash, ← hsize4, toWords_take, List.drop_zero, hws]
  unfold RabinKarpMIPSHasher.find
  rw [if_neg (by omega), if_neg (by omega)]
  by_cases h0 : RabinKarpMIPSHasher.hash_be_mips_bytes q fam 0 (bytes.take size) = needle
  · rw [if_pos h0]
    unfold refFind
    have hr : ws.length + 1 - k = (ws.length - k) + 1 := by omega
    rw [List.range_eq_range', hr, List.range'_succ]
    rw [List.find?_cons_of_pos _ (by simp only [beq_iff_eq]; rw [← hinit]; exact h0)]
    rfl
  · rw [if_neg h0]
    have hrm : (((List.range (size / 4 - 1)).foldl
        (fun r _ => (RK_RADIX * r) % q) 1 : Nat) : ZMod q) =
        (RK_RADIX : ZMod q) ^ (k - 1) := by
      rw [← hkdef]; exact rmFold_cast q (k - 1)
    have hdropk : toWords fam (bytes.drop size) = ws.drop k := by
      rw [← hsize4, toWords_drop, hws]
    have hslide := rkSlide_spec q _ needle k hq hk1 hrm ws (ws.length - k) 0
      (by omega) (by omega)
    simp only [Nat.zero_add, List.drop_zero] at hslide
    simp only [hinit, hdropk, List.drop_zero]
    rw [hslide]
    unfold refFind
    have hr : ws.length + 1 - k = (ws.length - k) + 1 := by omega
    have hne0 : ¬ ((wordsHash q ((ws.drop 0).take k) == needle) = true) := by
      simp only [beq_iff_eq, List.drop_zero]
      intro hcon
      exact h0 (by rw [hinit, List.drop_zero]; exact hcon)
    simp only [List.drop_zero] at hne0
    rw [List.range_eq_range', hr, List.range'_succ,
      @List.find?_cons_of_neg Nat (fun i => wordsHash q ((ws.drop i).take k) == needle) 0
        (List.range' (0 + 1) (ws.length - k)) hne0]
    simp only [Nat.zero_add]
    match hfound : (List.range' 1 (ws.length - k)).find?
        (fun i => wordsHash q ((ws.drop i).take k) == needle) with
    | none => simp
    | some j =>
      have hj : j ∈ List.range' 1 (ws.length - k) := List.mem_of_find?_eq_some hfound
      have hj1 : 1 ≤ j := by
        rcases List.mem_range'.mp hj with ⟨i, _, rfl⟩
        omega
      simp only [Option.map_some']
      congr 1
      omega

/-- The scanner's roll loop visits windows `t, t + 1, …` in order and answers
the byte offset of the first whose hash equals the fingerprint. -/
theorem scanLoop_spec (q rm needle k : Nat) (hq : 0 < q) (hk : 1 ≤ k)
    (hrm : (rm : ZMod q) = (RK_RADIX : ZMod q) ^ (k - 1)) (ws : List Nat) :
    ∀ n t, n = ws.length - k - t → t + k ≤ ws.length →
    scanLoop RK_RADIX q rm needle k ws.length ws
        (wordsHash q ((ws.drop t).take k)) (t + k) =
      ((List.range' t (n + 1)).find?
          (fun i => wordsHash q ((ws.drop i).take k) == needle)).map
        (fun i => i * 4) := by
  intro n
  induction n with
  | zero =>
    intro t hn ht
    rw [scanLoop]
    by_cases hmatch : wordsHash q ((ws.drop t).take k) = needle
    · rw [if_pos hmatch]
      have ht' : t + k - k = t := by omega
      rw [ht', List.range'_one, List.find?_cons_of_pos _ (by simpa using hmatch)]
      rfl
    · rw [if_neg hmatch, dif_neg (by omega), List.range'_one,
        List.find?_cons_of_neg _ (by simpa using hmatch)]
      rfl
  | succ n ih =>
    intro t hn ht
    have htlt : t < ws.length := by omega
    have htk : t + k < ws.length := by omega
    rw [scanLoop]
    by_cases hmatch : wordsHash q ((ws.drop t).take k) = needle
    · rw [if_pos hmatch]
      have ht' : t + k - k = t := by omega
      rw [ht', List.range'_succ, List.find?_cons_of_pos _ (by simpa using hmatch)]
      rfl
    · rw [if_neg hmatch, dif_pos (by omega)]
      have hg1 : ws.getD (t + k - k) 0 = ws[t] := by
        have ht' : t + k - k = t := by omega
        rw [ht', List.getD_eq_getElem?_getD, List.getElem?_eq_getElem htlt]
        rfl
      have hg2 : ws.getD (t + k) 0 = ws[t + k] := by
        rw [List.getD_eq_getElem?_getD, List.getElem?_eq_getElem htk]
        rfl
      have hroll : ((RK_RADIX *
          ((wordsHash q ((ws.drop t).take k) + q - (rm * ws[t]) % q) % q)) +
            ws[t + k]) % q = wordsHash q ((ws.drop (t + 1)).take k) := by
        have h1 := roll_eq q hq rm (k - 1) hrm ws[t] ws[t + k]
          ((ws.drop (t + 1)).take (k - 1)) (window_length ws t k (by omega))
        rw [← window_head ws t k hk htlt, ← window_last ws t k hk htk] at h1
        exact h1
      simp only [hg1, hg2, hroll]
      have hstep : scanLoop RK_RADIX q rm needle k ws.length ws
          (wordsHash q ((ws.drop (t + 1)).take k)) ((t + 1) + k) =
          ((List.range' (t + 1) (n + 1)).find?
              (fun i => wordsHash q ((ws.drop i).take k) == needle)).map
            (fun i => i * 4) := ih (t + 1) (by omega) (by omega)
      have harg : t + k + 1 = (t + 1) + k := by omega
      rw [List.range'_succ, List.find?_cons_of_neg _ (by simpa using hmatch),
        harg, hstep]

/-- The scanner's `find` over the whole word vector realizes the first-match
semantics, provided the needle is strictly shorter than the haystack. -/
theorem scan_find_eq_refFind (q needle k : Nat) (ws : List Nat) (hq : 0 < q)
    (hk : 1 ≤ k) (hlt : k < ws.length) :
    scan_find needle k ws 0 ws.length RK_RADIX q = refFind q needle k ws := by
  unfold scan_find
  have hmin : min k (ws.length - 0) = k := by omega
  simp only [hmin, List.drop_zero, Nat.zero_add]
  rw [if_neg (by omega)]
  have hrm : (((List.range (k - 1)).foldl
      (fun r _ => (RK_RADIX * r) % q) 1 : Nat) : ZMod q) =
      (RK_RADIX : ZMod q) ^ (k - 1) := rmFold_cast q (k - 1)
  have hspec := scanLoop_spec q _ needle k hq hk hrm ws (ws.length - k) 0
    (by omega) (by omega)
  simp only [Nat.zero_add, List.drop_zero] at hspec
  have hfold : (ws.take k).foldl (fun h w => ((RK_RADIX * h) + w) % q) 0 =
      wordsHash q (ws.take k) := rfl
  rw [hfold, hspec]
  unfold refFind
  have hr : ws.length + 1 - k = (ws.length - k) + 1 := by omega
  rw [List.range_eq_range', hr]

-- C6: the two rolling searches agree on strictly-contained needles -----------

/-- **C6 (amended).** For every haystack whose length is a multiple of 4 and
every needle hash of byte size `s`, a positive multiple of 4 **strictly less
than** the haystack length, the scanner's rolling search over the normalized
words returns the same optional byte offset as the byte-level
`RabinKarpMIPSHasher::find`, for the same family, radix and modulus.  (At
`s` equal to the haystack length the scanner's early bail-out `i >= len`
returns `none` even when the hasher reports a match at offset 0; see the
counterexample.) -/
theorem scan_find_eq_rk_find (q : Nat) (fam : MIPSFamily) (needle size : Nat)
    (bytes : List Nat) (hq : 0 < q) (h4 : bytes.length % 4 = 0)
    (hs4 : size % 4 = 0) (hpos : 0 < size) (hlt : size < bytes.length) :
    scan_find needle (size / 4) (toWords fam bytes) 0 (toWords fam bytes).length
        RK_RADIX q =
      RabinKarpMIPSHasher.find q fam needle size bytes := by
  rw [rk_find_eq_refFind q fam needle size bytes hq hs4 hpos (by omega) h4]
  have hN : (toWords fam bytes).length = bytes.length / 4 := toWords_length fam bytes
  exact scan_find_eq_refFind q needle (size / 4) (toWords fam bytes) hq
    (by omega) (by omega)

/-- Witness for C6 on a concrete two-word haystack. -/
theorem scan_find_eq_rk_find_witness :
    scan_find 0 1 (toWords MIPSFamily.R3000GTE [8, 0, 0xE0, 3, 0, 0, 0, 0]) 0
        (toWords MIPSFamily.R3000GTE [8, 0, 0xE0, 3, 0, 0, 0, 0]).length
        RK_RADIX RK_MODULUS =
      RabinKarpMIPSHasher.find RK_MODULUS MIPSFamily.R3000GTE 0 4
        [8, 0, 0xE0, 3, 0, 0, 0, 0] :=
  scan_find_eq_rk_find RK_MODULUS MIPSFamily.R3000GTE 0 4 [8, 0, 0xE0, 3, 0, 0, 0, 0]
    (by norm_num [RK_MODULUS]) (by norm_num) (by norm_num) (by norm_num) (by norm_num)

/-- Counterexample to C6 as stated: when the needle byte size equals the
haystack length (allowed by "not exceeding"), the hasher finds the match at
offset 0 but the scanner's `i >= instructions.len()` bail-out answers `none`. -/
theorem scan_find_rk_find_disagree_at_full_length :
    RabinKarpMIPSHasher.find RK_MODULUS MIPSFamily.R3000GTE 0 4 [0, 0, 0, 0] = some 0 ∧
    scan_find 0 1 (toWords MIPSFamily.R3000GTE [0, 0, 0, 0]) 0
      (toWords MIPSFamily.R3000GTE [0, 0, 0, 0]).length RK_RADIX RK_MODULUS = none := by
  constructor <;> rfl

-- C1: the Rabin-Karp search finds the first true occurrence ------------------

theorem find?_range'_first (P : Nat → Bool) (p : Nat) :
    ∀ l s : Nat, s ≤ p → p < s + l → P p = true →
    (∀ i, s ≤ i → i < p → P i = false) →
    (List.range' s l).find? P = some p := by
  intro l
  induction l with
  | zero => intro s h1 h2 h3 h4; omega
  | succ l ih =>
    intro s h1 h2 h3 h4
    rw [List.range'_succ]
    by_cases hs : s = p
    · subst hs
      rw [List.find?_cons_of_pos _ h3]
    · have hPs : P s = false := h4 s (Nat.le_refl s) (by omega)
      rw [List.find?_cons_of_neg _ (by simp [hPs])]
      exact ih (s + 1) (by omega) (by omega) h3 (fun i hi1 hi2 => h4 i (by omega) hi2)

/-- **C1.** For a needle `n` of positive 4-aligned length and an aligned
haystack `H` that contains `n` at aligned offset `p`, with no earlier
aligned window of `H` of the needle's length hashing to the needle's hash,
`RabinKarpMIPSHasher::find` returns exactly `some p`; and it returns `none`
whenever the haystack is shorter than the needle. -/
theorem rk_find_locates (q : Nat) (fam : MIPSFamily) (n H : List Nat) (p : Nat)
    (hq : 0 < q) (hn4 : n.length % 4 = 0) (hnpos : 0 < n.length)
    (hH4 : H.length % 4 = 0) (hp4 : p % 4 = 0) (hfit : p + n.length ≤ H.length)
    (hat : (H.drop p).take n.length = n)
    (hbefore : ∀ j, j % 4 = 0 → j < p →
      RabinKarpMIPSHasher.hash_be_mips_bytes q fam 0 ((H.drop j).take n.length) ≠
        RabinKarpMIPSHasher.hash_be_mips_bytes q fam 0 n) :
    RabinKarpMIPSHasher.find q fam
        (RabinKarpMIPSHasher.hash_be_mips_bytes q fam 0 n) n.length H = some p ∧
    ∀ H2 : List Nat, H2.length < n.length →
      RabinKarpMIPSHasher.find q fam
        (RabinKarpMIPSHasher.hash_be_mips_bytes q fam 0 n) n.length H2 = none := by
  constructor
  · rw [rk_find_eq_refFind q fam _ n.length H hq hn4 hnpos (by omega) hH4]
    have hN : (toWords fam H).length = H.length / 4 := toWords_length fam H
    set ws := toWords fam H with hws
    set k := n.length / 4 with hkdef
    have hsz : 4 * k = n.length := by omega
    have hwindow : ∀ j, j % 4 = 0 → j + n.length ≤ H.length →
        wordsHash q ((ws.drop (j / 4)).take k) =
          RabinKarpMIPSHasher.hash_be_mips_bytes q fam 0 ((H.drop j).take n.length) := by
      intro j hj4 hjfit
      rw [hash_be_eq_wordsHash]
      congr 1
      rw [hws]
      have hj : 4 * (j / 4) = j := by omega
      rw [← toWords_window fam H (j / 4) k, hsz, hj]
    have hkN : k ≤ ws.length := by omega
    have hp4N : p / 4 + k ≤ ws.length := by omega
    have hp : (fun i => wordsHash q ((ws.drop i).take k) ==
        RabinKarpMIPSHasher.hash_be_mips_bytes q fam 0 n) (p / 4) = true := by
      simp only [beq_iff_eq]
      rw [hwindow p hp4 hfit, hat]
    have hmin : ∀ i, 0 ≤ i → i < p / 4 →
        (fun i => wordsHash q ((ws.drop i).take k) ==
          RabinKarpMIPSHasher.hash_be_mips_bytes q fam 0 n) i = false := by
      intro i _ hilt
      show (wordsHash q ((ws.drop i).take k) ==
        RabinKarpMIPSHasher.hash_be_mips_bytes q fam 0 n) = false
      simp only [beq_eq_false_iff_ne, ne_eq]
      have hi4 : (4 * i) % 4 = 0 := by omega
      have hifit : 4 * i + n.length ≤ H.length := by omega
      have hwi := hwindow (4 * i) hi4 hifit
      rw [Nat.mul_div_cancel_left i (by norm_num : 0 < 4)] at hwi
      rw [hwi]
      exact hbefore (4 * i) hi4 (by omega)
    unfold refFind
    rw [List.range_eq_range']
    rw [find?_range'_first _ (p / 4) (ws.length + 1 - k) 0 (by omega) (by omega)
      hp hmin]
    simp only [Option.map_some']
    congr 1
    omega
  · intro H2 h2
    unfold RabinKarpMIPSHasher.find
    rw [if_pos (by omega)]

/-- Witness for C1: the needle `jr $ra` found at offset 4 after one
non-matching zero word. -/
theorem rk_find_locates_witness :
    RabinKarpMIPSHasher.find RK_MODULUS MIPSFamily.R3000GTE
        (RabinKarpMIPSHasher.hash_be_mips_bytes RK_MODULUS MIPSFamily.R3000GTE 0
          [8, 0, 0xE0, 3])
        4 [0, 0, 0, 0, 8, 0, 0xE0, 3] = some 4 :=
  (rk_find_locates RK_MODULUS MIPSFamily.R3000GTE [8, 0, 0xE0, 3]
    [0, 0, 0, 0, 8, 0, 0xE0, 3] 4 (by norm_num [RK_MODULUS]) (by norm_num)
    (by norm_num) (by norm_num) (by norm_num) (by norm_num) (by decide)
    (by intro j hj4 hjlt
        have hj : j = 0 := by omega
        subst hj
        decide)).1

-- C7: the binary-format sniffer (src/arch/mips.rs) ---------------------------

/-- The raw-image word-order tag (`BinFormat` in `src/arch/mips.rs`). -/
inductive BinFormat where
  | BigEndian
  | LittleEndian
  | BigSwapped
  | LittleSwapped
  deriving DecidableEq, Repr

/-- The counting loop of `determine_bin_fmt`: decode every aligned chunk
big-endian and count exact matches of the four canonical `jr $ra` encodings,
as `(be, le, bs, ls)`.  The source feeds `bytes.chunks(4)` to
`be_bytes_to_u32`, which panics by indexing out of bounds on a trailing
partial chunk; the model keeps only complete chunks, so every statement
about it carries a `length % 4 = 0` hypothesis. -/
def jrRaCounts (bytes : List Nat) : Nat × Nat × Nat × Nat :=
  (chunks4 bytes).foldl
    (fun (c : Nat × Nat × Nat × Nat) chunk =>
      let i := be_bytes_to_u32 chunk
      if i = 0x0800E003 then (c.1 + 1, c.2.1, c.2.2.1, c.2.2.2)
      else if i = 0x03E00008 then (c.1, c.2.1 + 1, c.2.2.1, c.2.2.2)
      else if i = 0x000803E0 then (c.1, c.2.1, c.2.2.1 + 1, c.2.2.2)
      else if i = 0xE0030800 then (c.1, c.2.1, c.2.2.1, c.2.2.2 + 1)
      else c)
    (0, 0, 0, 0)

/-- `determine_bin_fmt` (`src/arch/mips.rs`): the decision cascade over the
four counts. -/
def determine_bin_fmt (bytes : List Nat) : Option BinFormat :=
  let c := jrRaCounts bytes
  if 0 < c.1 ∧ c.2.1 < c.1 ∧ c.2.2.1 < c.1 ∧ c.2.2.2 < c.1 then
    some BinFormat.BigEndian
  else if 0 < c.2.1 ∧ c.2.2.1 < c.2.1 ∧ c.2.2.2 < c.2.1 then
    some BinFormat.LittleEndian
  else if 0 < c.2.2.1 ∧ c.2.2.2 < c.2.2.1 then some BinFormat.BigSwapped
  else if 0 < c.2.2.2 then some BinFormat.LittleSwapped
  else none

/-- The count belonging to one format. -/
def jrRaCountOf (F : BinFormat) (c : Nat × Nat × Nat × Nat) : Nat :=
  match F with
  | BinFormat.BigEndian => c.1
  | BinFormat.LittleEndian => c.2.1
  | BinFormat.BigSwapped => c.2.2.1
  | BinFormat.LittleSwapped => c.2.2.2

/-- Position of a format in the cascade order BE, LE, BS, LS. -/
def fmtOrder (F : BinFormat) : Nat :=
  match F with
  | BinFormat.BigEndian => 0
  | BinFormat.LittleEndian => 1
  | BinFormat.BigSwapped => 2
  | BinFormat.LittleSwapped => 3

/-- **C7 (amended).** `determine_bin_fmt` returns `none` exactly when all
four `jr $ra` counts are zero; otherwise it returns the format whose count
equals the maximum of the four, and on ties the **last** tied format in the
order BE, LE, BS, LS wins: every format strictly later in the cascade than
the winner has a strictly smaller count.  (The claim's tie-break order
BE > LE > BS > LS is reversed: see the counterexample, where a BE/LE tie
yields LittleEndian.)  The hypothesis restricts to aligned images: on a
misaligned length the source panics decoding the trailing partial chunk. -/
theorem determine_bin_fmt_spec (bytes : List Nat) (h4 : bytes.length % 4 = 0) :
    (determine_bin_fmt bytes = none ↔
      jrRaCounts bytes = (0, 0, 0, 0)) ∧
    (∀ F, determine_bin_fmt bytes = some F →
      0 < jrRaCountOf F (jrRaCounts bytes) ∧
      (∀ G, jrRaCountOf G (jrRaCounts bytes) ≤ jrRaCountOf F (jrRaCounts bytes)) ∧
      (∀ G, fmtOrder F < fmtOrder G →
        jrRaCountOf G (jrRaCounts bytes) < jrRaCountOf F (jrRaCounts bytes))) := by
  rcases hc : jrRaCounts bytes with ⟨be, le, bs, ls⟩
  unfold determine_bin_fmt
  simp only [hc]
  refine ⟨⟨fun h => ?_, fun h => ?_⟩, fun F hF => ?_⟩
  · split_ifs at h with h1 h2 h3 h4 <;> simp_all <;> omega
  · simp only [Prod.mk.injEq] at h
    obtain ⟨rfl, rfl, rfl, rfl⟩ := h
    norm_num
  · split_ifs at hF with h1 h2 h3 h4
    · obtain rfl : BinFormat.BigEndian = F := Option.some.inj hF
      simp only [jrRaCountOf]
      refine ⟨by omega, fun G => ?_, fun G hG => ?_⟩
      · cases G <;> simp only [jrRaCountOf] <;> omega
      · cases G <;> simp only [jrRaCountOf, fmtOrder] at hG ⊢ <;> omega
    · obtain rfl : BinFormat.LittleEndian = F := Option.some.inj hF
      simp only [jrRaCountOf]
      refine ⟨by omega, fun G => ?_, fun G hG => ?_⟩
      · cases G <;> simp only [jrRaCountOf] <;> omega
      · cases G <;> simp only [jrRaCountOf, fmtOrder] at hG ⊢ <;> omega
    · obtain rfl : BinFormat.BigSwapped = F := Option.some.inj hF
      simp only [jrRaCountOf]
      refine ⟨by omega, fun G => ?_, fun G hG => ?_⟩
      · cases G <;> simp only [jrRaCountOf] <;> omega
      · cases G <;> simp only [jrRaCountOf, fmtOrder] at hG ⊢ <;> omega
    · obtain rfl : BinFormat.LittleSwapped = F := Option.some.inj hF
      simp only [jrRaCountOf]
      refine ⟨by omega, fun G => ?_, fun G hG => ?_⟩
      · cases G <;> simp only [jrRaCountOf] <;> omega
      · cases G <;> simp only [jrRaCountOf, fmtOrder] at hG ⊢ <;> omega

/-- Witness for C7 at a one-word little-endian image. -/
theorem determine_bin_fmt_spec_witness :
    0 < jrRaCountOf BinFormat.LittleEndian (jrRaCounts [0x03, 0xE0, 0x00, 0x08]) ∧
    ∀ G, jrRaCountOf G (jrRaCounts [0x03, 0xE0, 0x00, 0x08]) ≤
      jrRaCountOf BinFormat.LittleEndian (jrRaCounts [0x03, 0xE0, 0x00, 0x08]) := by
  have h := (determine_bin_fmt_spec [0x03, 0xE0, 0x00, 0x08] (by norm_num)).2
    BinFormat.LittleEndian (by decide)
  exact ⟨h.1, h.2.1⟩

/-- Counterexample to C7 as stated: one BE `jr $ra` word followed by one LE
`jr $ra` word gives tied counts `be = le = 1`, and the sniffer answers
`LittleEndian`, not the claimed tie-break winner `BigEndian`. -/
theorem determine_bin_fmt_tie_counterexample :
    jrRaCounts [0x08, 0x00, 0xE0, 0x03, 0x03, 0xE0, 0x00, 0x08] = (1, 1, 0, 0) ∧
    determine_bin_fmt [0x08, 0x00, 0xE0, 0x03, 0x03, 0xE0, 0x00, 0x08] =
      some BinFormat.LittleEndian := by
  constructor <;> rfl

-- Zero words and normalization -----------------------------------------------

theorem nat_or_eq_zero (a b : Nat) : a ||| b = 0 ↔ a = 0 ∧ b = 0 := by
  constructor
  · intro h
    constructor
    · apply Nat.eq_of_testBit_eq
      intro i
      have ht := congrArg (fun x => Nat.testBit x i) h
      simp only [Nat.testBit_or] at ht
      simp only [Nat.zero_testBit]
      cases ha : a.testBit i <;> simp [ha] at ht ⊢
    · apply Nat.eq_of_testBit_eq
      intro i
      have ht := congrArg (fun x => Nat.testBit x i) h
      simp only [Nat.testBit_or] at ht
      simp only [Nat.zero_testBit]
      cases hb : b.testBit i <;> simp [hb] at ht ⊢
  · rintro ⟨rfl, rfl⟩
    rfl

theorem shiftLeft_eq_zero_iff (a n : Nat) : a <<< n = 0 ↔ a = 0 := by
  rw [Nat.shiftLeft_eq]
  constructor
  · intro h
    have := Nat.pos_pow_of_pos n (show 0 < 2 by norm_num)
    exact Nat.eq_zero_of_mul_eq_zero h |>.resolve_right (by omega)
  · rintro rfl
    simp

theorem le_bytes_eq_zero_iff (b0 b1 b2 b3 : Nat) (rest : List Nat) :
    le_bytes_to_u32 (b0 :: b1 :: b2 :: b3 :: rest) = 0 ↔
      b0 = 0 ∧ b1 = 0 ∧ b2 = 0 ∧ b3 = 0 := by
  show (b3 <<< 24) ||| ((b2 <<< 16) ||| ((b1 <<< 8) ||| b0)) = 0 ↔ _
  rw [nat_or_eq_zero, nat_or_eq_zero, nat_or_eq_zero,
    shiftLeft_eq_zero_iff, shiftLeft_eq_zero_iff, shiftLeft_eq_zero_iff]
  tauto

theorem be_bytes_eq_zero_iff (b0 b1 b2 b3 : Nat) (rest : List Nat) :
    be_bytes_to_u32 (b0 :: b1 :: b2 :: b3 :: rest) = 0 ↔
      b0 = 0 ∧ b1 = 0 ∧ b2 = 0 ∧ b3 = 0 := by
  show (b0 <<< 24) ||| ((b1 <<< 16) ||| ((b2 <<< 8) ||| b3)) = 0 ↔ _
  rw [nat_or_eq_zero, nat_or_eq_zero, nat_or_eq_zero,
    shiftLeft_eq_zero_iff, shiftLeft_eq_zero_iff, shiftLeft_eq_zero_iff]

theorem le_bytes_lt (b0 b1 b2 b3 : Nat) (rest : List Nat)
    (h0 : b0 < 256) (h1 : b1 < 256) (h2 : b2 < 256) (h3 : b3 < 256) :
    le_bytes_to_u32 (b0 :: b1 :: b2 :: b3 :: rest) < 2 ^ 32 := by
  show (b3 <<< 24) ||| ((b2 <<< 16) ||| ((b1 <<< 8) ||| b0)) < 2 ^ 32
  apply Nat.or_lt_two_pow (by rw [Nat.shiftLeft_eq]; norm_num; omega)
  apply Nat.or_lt_two_pow (by rw [Nat.shiftLeft_eq]; norm_num; omega)
  apply Nat.or_lt_two_pow (by rw [Nat.shiftLeft_eq]; norm_num; omega)
  norm_num
  omega

theorem be_bytes_lt (b0 b1 b2 b3 : Nat) (rest : List Nat)
    (h0 : b0 < 256) (h1 : b1 < 256) (h2 : b2 < 256) (h3 : b3 < 256) :
    be_bytes_to_u32 (b0 :: b1 :: b2 :: b3 :: rest) < 2 ^ 32 := by
  show (b0 <<< 24) ||| ((b1 <<< 16) ||| ((b2 <<< 8) ||| b3)) < 2 ^ 32
  apply Nat.or_lt_two_pow (by rw [Nat.shiftLeft_eq]; norm_num; omega)
  apply Nat.or_lt_two_pow (by rw [Nat.shiftLeft_eq]; norm_num; omega)
  apply Nat.or_lt_two_pow (by rw [Nat.shiftLeft_eq]; norm_num; omega)
  norm_num
  omega

/-- A 32-bit word normalizes to zero exactly when it is zero: every masking
branch preserves the nonzero primary opcode that selected it. -/
theorem normalize_eq_zero_iff (w : Nat) (f : MIPSFamily) (hw : w < 2 ^ 32) :
    normalize_instruction w f = 0 ↔ w = 0 := by
  constructor
  · intro h
    by_cases h0 : w >>> 26 = 0
    · simpa [normalize_instruction, h0] using h
    · by_cases h23 : w >>> 26 = 2 ∨ w >>> 26 = 3
      · exfalso
        have heq : normalize_instruction w f = w &&& 0xFC000000 := by
          simp [normalize_instruction, h0, h23]
        have hop := opcode_and_FC w hw
        rw [heq] at h
        rw [h] at hop
        simp only [Nat.zero_shiftRight] at hop
        omega
      · exfalso
        have heq : normalize_instruction w f = w &&& 0xFFFF0000 := by
          simp [normalize_instruction, h0, h23]
        have hop := opcode_and_FFFF w hw
        rw [heq] at h
        rw [h] at hop
        simp only [Nat.zero_shiftRight] at hop
        omega
  · rintro rfl
    simp [normalize_instruction]

/-- A four-byte chunk of genuine bytes normalizes to the zero word exactly
when all four bytes are zero, for every family. -/
theorem chunk_normalized_eq_zero_iff (b0 b1 b2 b3 : Nat) (rest : List Nat)
    (fam : MIPSFamily) (h0 : b0 < 256) (h1 : b1 < 256) (h2 : b2 < 256)
    (h3 : b3 < 256) :
    bytes_to_normalized_instruction (b0 :: b1 :: b2 :: b3 :: rest) fam = 0 ↔
      b0 = 0 ∧ b1 = 0 ∧ b2 = 0 ∧ b3 = 0 := by
  unfold bytes_to_normalized_instruction
  by_cases hf : fam = MIPSFamily.R4000
  · subst hf
    rw [if_pos rfl]
    rw [normalize_eq_zero_iff _ _ (be_bytes_lt b0 b1 b2 b3 rest h0 h1 h2 h3)]
    exact be_bytes_eq_zero_iff b0 b1 b2 b3 rest
  · simp only [if_neg hf]
    rw [normalize_eq_zero_iff _ _ (le_bytes_lt b0 b1 b2 b3 rest h0 h1 h2 h3)]
    exact le_bytes_eq_zero_iff b0 b1 b2 b3 rest

-- Fingerprint value type (src/fingerprint.rs) --------------------------------

/-- `MODULUS_V0` (`src/fingerprint.rs`): the default modulus, omitted from
the textual form. -/
def MODULUS_V0 : Nat := 0xFFFFFFEF

/-- `FingerprintV0` (`src/fingerprint.rs`): `(size, hash, optional modulus)`. -/
structure FingerprintV0 where
  size : Nat
  hash : Nat
  modulus : Option Nat
  deriving DecidableEq, Repr

/-- `FingerprintV0::new`. -/
def FingerprintV0.new (size hash : Nat) : FingerprintV0 :=
  { size := size, hash := hash, modulus := none }

/-- `FingerprintV0::new_with_modulus`: the default modulus collapses to
`none`. -/
def FingerprintV0.new_with_modulus (size hash modulus : Nat) : FingerprintV0 :=
  if modulus = MODULUS_V0 then FingerprintV0.new size hash
  else { size := size, hash := hash, modulus := some modulus }

/-- The versioned `Fingerprint` wrapper (`src/fingerprint.rs`). -/
inductive Fingerprint where
  | V0 (f : FingerprintV0)
  deriving DecidableEq, Repr

/-- The size field of a fingerprint's V0 payload. -/
def Fingerprint.v0size : Fingerprint → Nat
  | Fingerprint.V0 f => f.size

/-- The hash field of a fingerprint's V0 payload. -/
def Fingerprint.v0hash : Fingerprint → Nat
  | Fingerprint.V0 f => f.hash

-- The trimming fingerprint of a byte range (src/fingerprint.rs) --------------

/-- The backwards `while` loop of `sig_for_range`: starting at `u`, walk back
one word at a time while the normalized word is zero; stop just after the
first nonzero word (returning the offset past it), or at 0 when every word
was zero.  The Rust loop subtracts 4 from a `usize`; callers keep `u` a
multiple of 4, where no underflow occurs. -/
def trimLoop (fam : MIPSFamily) (bytes : List Nat) (u : Nat) : Nat :=
  if u = 0 then 0
  else
    let u2 := u - 4
    if bytes_to_normalized_instruction ((bytes.drop u2).take 4) fam ≠ 0 then u2 + 4
    else trimLoop fam bytes u2
termination_by u
decreasing_by omega

/-- `sig_for_range` (`src/fingerprint.rs`): trim trailing zero words (keeping
one when any were present), then fingerprint the trimmed prefix.  The final
length is `min (len) (loop_result + 4)`, exactly as in the source. -/
def sig_for_range (q : Nat) (fam : MIPSFamily) (bytes : List Nat) : Fingerprint :=
  let unpadded_size := min bytes.length (trimLoop fam bytes bytes.length + 4)
  Fingerprint.V0 (FingerprintV0.new_with_modulus unpadded_size
    (RabinKarpMIPSHasher.hash_be_mips_bytes q fam 0 (bytes.take unpadded_size)) q)

/-- Spec-side description of the trimmed window (§4.5): count the trailing
all-zero 4-byte words; keep the whole window when there are none, and
otherwise drop them all but keep exactly one. -/
def trailingZeroWords (bytes : List Nat) : Nat :=
  ((chunks4 bytes).reverse.takeWhile (fun c => c == [0, 0, 0, 0])).length

/-- Spec-side trimmed length: `len` when the window ends in a nonzero word,
`len - 4·z + 4` when it has `z > 0` trailing zero words. -/
def specTrimmedLen (bytes : List Nat) : Nat :=
  if trailingZeroWords bytes = 0 then bytes.length
  else bytes.length - 4 * trailingZeroWords bytes + 4

/-- Trailing zero chunks among the first `m` chunks. -/
def tzPrefix (bytes : List Nat) (m : Nat) : Nat :=
  (((chunks4 bytes).take m).reverse.takeWhile (fun c => c == [0, 0, 0, 0])).length

theorem tzPrefix_le (bytes : List Nat) (m : Nat) : tzPrefix bytes m ≤ m := by
  calc tzPrefix bytes m ≤ ((chunks4 bytes).take m).reverse.length :=
        (List.takeWhile_sublist _).length_le
    _ ≤ m := by rw [List.length_reverse]; exact List.length_take_le m _

theorem tzPrefix_succ (bytes : List Nat) (m : Nat) (hm : m < (chunks4 bytes).length) :
    tzPrefix bytes (m + 1) =
      if (chunks4 bytes).getD m [] == [0, 0, 0, 0] then tzPrefix bytes m + 1
      else 0 := by
  unfold tzPrefix
  rw [List.take_succ, List.getElem?_eq_getElem hm]
  simp only [Option.toList_some, List.reverse_append, List.reverse_cons,
    List.reverse_nil, List.nil_append, List.cons_append, List.takeWhile_cons]
  have hg : (chunks4 bytes).getD m [] = (chunks4 bytes)[m] := by
    rw [List.getD_eq_getElem?_getD, List.getElem?_eq_getElem hm]
    rfl
  rw [hg]
  cases hz : ((chunks4 bytes)[m] == [0, 0, 0, 0]) <;> simp [hz]

set_option maxRecDepth 4000 in
/-- The backwards loop of `sig_for_range` stops exactly after stripping the
trailing zero words of the inspected prefix. -/
theorem trimLoop_eq (fam : MIPSFamily) (bytes : List Nat)
    (hb : ∀ b ∈ bytes, b < 256) :
    ∀ m, 4 * m ≤ bytes.length →
      trimLoop fam bytes (4 * m) = 4 * m - 4 * tzPrefix bytes m := by
  intro m
  induction m with
  | zero =>
    intro _
    rw [trimLoop]
    simp [tzPrefix]
  | succ m ih =>
    intro hm
    have hlen : 4 ≤ (bytes.drop (4 * m)).length := by
      rw [List.length_drop]
      omega
    match hd : bytes.drop (4 * m) with
    | [] => rw [hd] at hlen; simp at hlen
    | [b0] => rw [hd] at hlen; simp at hlen
    | [b0, b1] => rw [hd] at hlen; simp at hlen
    | [b0, b1, b2] => rw [hd] at hlen; simp at hlen
    | b0 :: b1 :: b2 :: b3 :: rest =>
      have hbnds : b0 < 256 ∧ b1 < 256 ∧ b2 < 256 ∧ b3 < 256 := by
        refine ⟨hb b0 ?_, hb b1 ?_, hb b2 ?_, hb b3 ?_⟩ <;>
          exact List.mem_of_mem_drop (by rw [hd]; simp)
      have hchunkm : (chunks4 bytes).getD m [] = [b0, b1, b2, b3] := by
        have hcd : (chunks4 bytes).drop m = chunks4 (bytes.drop (4 * m)) :=
          (chunks4_drop m bytes).symm
        rw [hd, chunks4_cons4] at hcd
        have : (chunks4 bytes)[m]? = ((chunks4 bytes).drop m)[0]? := by
          rw [List.getElem?_drop]
          simp
        rw [hcd] at this
        simp only [List.getElem?_cons_zero] at this
        rw [List.getD_eq_getElem?_getD, this]
        rfl
      have hmlt : m < (chunks4 bytes).length := by
        rw [chunks4_length]
        omega
      have htake : (bytes.drop (4 * m)).take 4 = [b0, b1, b2, b3] := by
        rw [hd]
        rfl
      rw [show 4 * (m + 1) = 4 * m + 4 by ring]
      rw [trimLoop]
      rw [if_neg (by omega)]
      simp only [Nat.add_sub_cancel]
      rw [htake]
      by_cases hz : b0 = 0 ∧ b1 = 0 ∧ b2 = 0 ∧ b3 = 0
      · have hzero : bytes_to_normalized_instruction [b0, b1, b2, b3] fam = 0 :=
          (chunk_normalized_eq_zero_iff b0 b1 b2 b3 [] fam hbnds.1 hbnds.2.1
            hbnds.2.2.1 hbnds.2.2.2).mpr hz
        rw [if_neg (by simpa using hzero)]
        rw [ih (by omega)]
        have htz : tzPrefix bytes (m + 1) = tzPrefix bytes m + 1 := by
          rw [tzPrefix_succ bytes m hmlt, if_pos]
          rw [hchunkm]
          obtain ⟨rfl, rfl, rfl, rfl⟩ := hz
          rfl
        rw [htz]
        have := tzPrefix_le bytes m
        omega
      · have hnz : bytes_to_normalized_instruction [b0, b1, b2, b3] fam ≠ 0 := by
          intro hcon
          exact hz ((chunk_normalized_eq_zero_iff b0 b1 b2 b3 [] fam hbnds.1
            hbnds.2.1 hbnds.2.2.1 hbnds.2.2.2).mp hcon)
        rw [if_pos (by simpa using hnz)]
        have htz : tzPrefix bytes (m + 1) = 0 := by
          rw [tzPrefix_succ bytes m hmlt, if_neg]
          rw [hchunkm]
          simp only [beq_iff_eq, List.cons.injEq, and_true]
          intro hcon
          exact hz ⟨hcon.1, hcon.2.1, hcon.2.2.1, hcon.2.2.2⟩
        rw [htz]
        omega

/-- The trimmed window length computed by `sig_for_range` equals the
spec-side description. -/
theorem unpadded_size_eq_specTrimmedLen (fam : MIPSFamily) (bytes : List Nat)
    (h4 : bytes.length % 4 = 0) (hb : ∀ b ∈ bytes, b < 256) :
    min bytes.length (trimLoop fam bytes bytes.length + 4) =
      specTrimmedLen bytes := by
  have hM : bytes.length = 4 * (bytes.length / 4) := by omega
  have htl := trimLoop_eq fam bytes hb (bytes.length / 4) (by omega)
  have htzw : trailingZeroWords bytes = tzPrefix bytes (bytes.length / 4) := by
    unfold trailingZeroWords tzPrefix
    rw [List.take_of_length_le (by rw [chunks4_length])]
  rw [← hM] at htl
  rw [htl, specTrimmedLen, htzw]
  have hle := tzPrefix_le bytes (bytes.length / 4)
  by_cases hz : tzPrefix bytes (bytes.length / 4) = 0
  · rw [if_pos hz]
    omega
  · rw [if_neg hz]
    omega

theorem new_with_modulus_size (s h m : Nat) :
    (FingerprintV0.new_with_modulus s h m).size = s := by
  unfold FingerprintV0.new_with_modulus FingerprintV0.new
  split_ifs <;> rfl

-- C3: the segment fingerprint is computed over the trimmed window ------------

/-- Helper form of the trimming property, shared by the per-symbol result. -/
theorem sig_for_range_spec_aux (q : Nat) (fam : MIPSFamily) (bytes : List Nat)
    (hne : bytes ≠ []) (h4 : bytes.length % 4 = 0) (hb : ∀ b ∈ bytes, b < 256) :
    sig_for_range q fam bytes =
      Fingerprint.V0 (FingerprintV0.new_with_modulus (specTrimmedLen bytes)
        (RabinKarpMIPSHasher.hash_be_mips_bytes q fam 0
          (bytes.take (specTrimmedLen bytes))) q) ∧
    (sig_for_range q fam bytes).v0size = specTrimmedLen bytes := by
  have h := unpadded_size_eq_specTrimmedLen fam bytes h4 hb
  constructor
  · unfold sig_for_range
    rw [h]
  · unfold sig_for_range
    simp only [h, Fingerprint.v0size, new_with_modulus_size]

/-- **C3.** For every non-empty aligned byte window, `sig_for_range` computes
its fingerprint over the prefix obtained by removing trailing all-zero 4-byte
words while keeping exactly one zero word whenever at least one was present
(the whole window when it ends in a nonzero word), and the fingerprint's size
field equals that trimmed length. -/
theorem sig_for_range_trims (q : Nat) (fam : MIPSFamily) (bytes : List Nat)
    (hne : bytes ≠ []) (h4 : bytes.length % 4 = 0) (hb : ∀ b ∈ bytes, b < 256) :
    sig_for_range q fam bytes =
      Fingerprint.V0 (FingerprintV0.new_with_modulus (specTrimmedLen bytes)
        (RabinKarpMIPSHasher.hash_be_mips_bytes q fam 0
          (bytes.take (specTrimmedLen bytes))) q) ∧
    (sig_for_range q fam bytes).v0size = specTrimmedLen bytes :=
  sig_for_range_spec_aux q fam bytes hne h4 hb

/-- Witness for C3: `jr $ra` followed by two zero words trims to eight
bytes. -/
theorem sig_for_range_trims_witness :
    sig_for_range RK_MODULUS MIPSFamily.R3000GTE
        [8, 0, 0xE0, 3, 0, 0, 0, 0, 0, 0, 0, 0] =
      Fingerprint.V0 (FingerprintV0.new_with_modulus
        (specTrimmedLen [8, 0, 0xE0, 3, 0, 0, 0, 0, 0, 0, 0, 0])
        (RabinKarpMIPSHasher.hash_be_mips_bytes RK_MODULUS MIPSFamily.R3000GTE 0
          ([8, 0, 0xE0, 3, 0, 0, 0, 0, 0, 0, 0, 0].take
            (specTrimmedLen [8, 0, 0xE0, 3, 0, 0, 0, 0, 0, 0, 0, 0])))
        RK_MODULUS) ∧
    (sig_for_range RK_MODULUS MIPSFamily.R3000GTE
        [8, 0, 0xE0, 3, 0, 0, 0, 0, 0, 0, 0, 0]).v0size =
      specTrimmedLen [8, 0, 0xE0, 3, 0, 0, 0, 0, 0, 0, 0, 0] :=
  sig_for_range_trims RK_MODULUS MIPSFamily.R3000GTE
    [8, 0, 0xE0, 3, 0, 0, 0, 0, 0, 0, 0, 0] (by simp) (by norm_num) (by decide)

-- The evaluator's per-object hashing (src/fingerprint.rs) --------------------

/-- `RODataSignatureType` (`src/lib.rs`). -/
inductive RODataSignatureType where
  | OnlyJumpTables
  | StartsAndEndsWithJumpTable
  | StartsWithJumpTable
  | EndsWithJumpTable
  | Unknown
  deriving DecidableEq, Repr

/-- `RODataSignature` (`src/lib.rs`). -/
structure RODataSignature where
  rodataType : RODataSignatureType
  size : Nat
  deriving DecidableEq, Repr

/-- A function signature as built by `calculate_object_hashes`
(`src/fingerprint.rs`): name, versioned fingerprint of the symbol's slice,
and the symbol's declared size. -/
structure FunctionSignature where
  name : String
  fingerprint : Fingerprint
  size : Nat
  deriving DecidableEq, Repr

/-- A segment signature as built by `calculate_object_hashes`. -/
structure SegmentSignature where
  name : String
  fingerprint : Fingerprint
  size : Nat
  family : MIPSFamily
  rodata : Option RODataSignature
  functions : List FunctionSignature
  deriving DecidableEq, Repr

/-- A text symbol of the map collaborator's `ObjectMap` (spec §3): name,
absolute VROM offset, VRAM and size.  Modelled from the spec: the map parser
producing these lives outside `src/`; the field set is exactly what
`calculate_object_hashes` reads. -/
structure TextSymbol where
  name : String
  offset : Nat
  vram : Nat
  size : Nat
  deriving DecidableEq, Repr

/-- The rodata block description carried by an `ObjectMap` (spec §3). -/
structure RODataInfo where
  vram : Nat
  vrom : Nat
  size : Nat
  deriving DecidableEq, Repr

/-- The map collaborator's `ObjectMap` (spec §3).  Modelled from the spec:
`object` path, text VROM offset (`offset`), VRAM, containing-segment VROM
(`vrom`), `size`, optional rodata block, and the contained text symbols. -/
structure ObjectMap where
  object : String
  offset : Nat
  vram : Nat
  vrom : Nat
  size : Nat
  rodata : Option RODataInfo
  text_symbols : List TextSymbol
  deriving DecidableEq, Repr

/-- `calculate_rodata_signature` (`src/fingerprint.rs`): returns `None`
unconditionally — the classification below the early `return None;` is
commented-out dead code. -/
def calculate_rodata_signature (map : ObjectMap) : Option RODataSignature :=
  none

/-- An in-bounds Rust slice `&bytes[start..stop]`. -/
def byteSlice (bytes : List Nat) (start stop : Nat) : List Nat :=
  (bytes.drop start).take (stop - start)

/-- `calculate_object_hashes` (`src/fingerprint.rs`): fingerprint the whole
object window `[offset - vrom, offset - vrom + size)`, then each text
symbol's `[symbol.offset - vrom, … + symbol.size)` slice via the same
`sig_for_range`, keeping the symbol's declared size in the
`FunctionSignature`.  (The source also writes the result to the YAML sink;
the emitted value is the `SegmentSignature` built here, with the name taken
from the object path.) -/
def calculate_object_hashes (q : Nat) (fam : MIPSFamily) (map : ObjectMap)
    (bytes : List Nat) : SegmentSignature :=
  let start := map.offset - map.vrom
  let stop := start + map.size
  let object_hash := sig_for_range q fam (byteSlice bytes start stop)
  let functions := map.text_symbols.map (fun symbol =>
    let s := symbol.offset - map.vrom
    let e := s + symbol.size
    { name := symbol.name,
      fingerprint := sig_for_range q fam (byteSlice bytes s e),
      size := symbol.size : FunctionSignature })
  { name := map.object,
    fingerprint := object_hash,
    size := map.size,
    family := fam,
    rodata := calculate_rodata_signature map,
    functions := functions }

-- C4: function fingerprints are produced by the same trimming hash ----------

/-- **C4 (amended).** For every text symbol, the evaluator produces the
function fingerprint by applying `sig_for_range` — the same trailing-zero
trimming used for segment windows — to the symbol's
`[offset, offset + size)` slice; hence the fingerprint's size field equals
the trimmed length of that slice (not always the declared size), while the
`FunctionSignature`'s own size field carries the symbol's declared size. -/
theorem calculate_object_hashes_function_sizes (q : Nat) (fam : MIPSFamily)
    (map : ObjectMap) (bytes : List Nat) (hb : ∀ b ∈ bytes, b < 256)
    (hsym : ∀ s ∈ map.text_symbols, 0 < s.size ∧ s.size % 4 = 0 ∧
      map.vrom ≤ s.offset ∧ s.offset - map.vrom + s.size ≤ bytes.length) :
    (calculate_object_hashes q fam map bytes).functions.map
        (fun f => (f.fingerprint.v0size, f.size)) =
      map.text_symbols.map (fun s =>
        (specTrimmedLen (byteSlice bytes (s.offset - map.vrom)
          ((s.offset - map.vrom) + s.size)), s.size)) := by
  unfold calculate_object_hashes
  simp only [List.map_map]
  apply List.map_congr_left
  intro s hs
  obtain ⟨hpos, hs4, hvrom, hfit⟩ := hsym s hs
  simp only [Function.comp]
  have hlen : (byteSlice bytes (s.offset - map.vrom)
      ((s.offset - map.vrom) + s.size)).length = s.size := by
    unfold byteSlice
    rw [List.length_take, List.length_drop]
    omega
  have hne : byteSlice bytes (s.offset - map.vrom)
      ((s.offset - map.vrom) + s.size) ≠ [] := by
    intro hcon
    rw [hcon] at hlen
    simp at hlen
    omega
  have hsb : ∀ b ∈ byteSlice bytes (s.offset - map.vrom)
      ((s.offset - map.vrom) + s.size), b < 256 := by
    intro b hbmem
    exact hb b (List.mem_of_mem_drop (List.mem_of_mem_take hbmem))
  have htrim := (sig_for_range_spec_aux q fam _ hne (by rw [hlen]; omega) hsb).2
  rw [Prod.mk.injEq]
  exact ⟨htrim, rfl⟩

/-- A 12-byte object whose single symbol covers the whole window and ends in
two zero words. -/
def cexBytes : List Nat := [8, 0, 0xE0, 3, 0, 0, 0, 0, 0, 0, 0, 0]

/-- The object map for that window: one symbol of declared size 12. -/
def cexMap : ObjectMap :=
  { object := "sample.c.o", offset := 0, vram := 0x80010000, vrom := 0,
    size := 12, rodata := none,
    text_symbols := [{ name := "f", offset := 0, vram := 0x80010000, size := 12 }] }

/-- Counterexample to C4 as stated: the symbol's slice ends in two all-zero
words, the evaluator trims it to 8 bytes, and the function fingerprint's
size field is 8, not the declared 12. -/
theorem function_fingerprint_size_counterexample :
    ((calculate_object_hashes RK_MODULUS MIPSFamily.R3000GTE cexMap
        cexBytes).functions.map (fun f => (f.fingerprint.v0size, f.size))) =
      [(8, 12)] ∧ (8 : Nat) ≠ 12 := by
  have hup := unpadded_size_eq_specTrimmedLen MIPSFamily.R3000GTE cexBytes
    (by norm_num [cexBytes]) (by decide)
  refine ⟨?_, by decide⟩
  have hv : (sig_for_range RK_MODULUS MIPSFamily.R3000GTE cexBytes).v0size = 8 := by
    unfold sig_for_range
    simp only [Fingerprint.v0size, new_with_modulus_size]
    rw [hup]
    decide
  unfold calculate_object_hashes
  simp only [cexMap, List.map_map, List.map, Function.comp]
  norm_num
  rw [show byteSlice cexBytes 0 12 = cexBytes from by decide, hv]

-- C5: the address-space claim discipline (src/scan.rs) -----------------------

/-- `address_space_is_used` (`src/scan.rs`): the candidate's start lies in an
accepted block, or its end lies in `(block_start, block_end]`. -/
def address_space_is_used (offset size : Nat)
    (allocated_address_space : List (Nat × Nat)) : Bool :=
  allocated_address_space.any (fun block =>
    (decide (offset ≥ block.1) && decide (offset < block.1 + block.2)) ||
    (decide (offset + size > block.1) && decide (offset + size ≤ block.1 + block.2)))

/-- One candidate of the scan loop in `scan` (`src/scan.rs`), abstracted to
what the claim discipline observes: the optional offset produced by the
segment-level `find`, the segment's byte size, and whether every declared
function was subsequently located (the emission gate). -/
structure ScanCand where
  found : Option Nat
  size : Nat
  complete : Bool

/-- The allocation/emission discipline of the `scan` loop (`src/scan.rs`):
process candidates in order; skip a candidate with no find result; skip one
whose interval is already used; otherwise claim the interval (before the
function search, as in the source) and emit it only when the function subset
was complete.  Returns the final claim list and the emitted intervals. -/
def scanClaims : List ScanCand → List (Nat × Nat) →
    List (Nat × Nat) × List (Nat × Nat)
  | [], alloc => (alloc, [])
  | ⟨none, _, _⟩ :: rest, alloc => scanClaims rest alloc
  | ⟨some offset, size, complete⟩ :: rest, alloc =>
    if address_space_is_used offset size alloc then scanClaims rest alloc
    else
      let next := scanClaims rest ((offset, size) :: alloc)
      if complete then (next.1, (offset, size) :: next.2) else next

/-- Two byte intervals `[offset, offset + size)` overlap. -/
def intervalsOverlap (a b : Nat × Nat) : Prop :=
  a.1 < b.1 + b.2 ∧ b.1 < a.1 + a.2

theorem intervalsOverlap_symm (a b : Nat × Nat) :
    intervalsOverlap a b ↔ intervalsOverlap b a := by
  unfold intervalsOverlap
  tauto

/-- A candidate that passes the used-check cannot overlap any block that is
at least as large as it. -/
theorem claim_not_overlap (o s : Nat) (alloc : List (Nat × Nat))
    (hused : address_space_is_used o s alloc = false)
    (hsz : ∀ b ∈ alloc, s ≤ b.2) :
    ∀ b ∈ alloc, ¬ intervalsOverlap (o, s) b := by
  intro b hb hov
  have hall := List.any_eq_false.mp hused b hb
  simp only [Bool.or_eq_true, Bool.and_eq_true, decide_eq_true_eq, not_or,
    not_and] at hall
  obtain ⟨h1, h2⟩ := hov
  simp only at h1 h2
  have hs := hsz b hb
  omega

theorem scanClaims_aux : ∀ (cands : List ScanCand) (alloc : List (Nat × Nat)),
    List.Pairwise (fun x y => ¬ intervalsOverlap x y) alloc →
    (∀ b ∈ alloc, ∀ c ∈ cands, c.size ≤ b.2) →
    List.Pairwise (fun c d => d.size ≤ c.size) cands →
    ∃ ins : List (Nat × Nat),
      (scanClaims cands alloc).1 = ins ++ alloc ∧
      (scanClaims cands alloc).2.Sublist ins.reverse ∧
      List.Pairwise (fun x y => ¬ intervalsOverlap x y)
        (scanClaims cands alloc).1 := by
  intro cands
  induction cands with
  | nil =>
    intro alloc hpw _ _
    exact ⟨[], by simp [scanClaims], by simp [scanClaims], by simpa [scanClaims]⟩
  | cons cand rest ih =>
    intro alloc hpw hsz hsorted
    have hsorted2 : List.Pairwise (fun c d => d.size ≤ c.size) rest :=
      hsorted.of_cons
    obtain ⟨found, size, complete⟩ := cand
    match found with
    | none =>
      rw [show scanClaims (⟨none, size, complete⟩ :: rest) alloc =
        scanClaims rest alloc from rfl]
      exact ih alloc hpw (fun b hb c hc => hsz b hb c (by simp [hc])) hsorted2
    | some offset =>
      by_cases hused : address_space_is_used offset size alloc = true
      · rw [show scanClaims (⟨some offset, size, complete⟩ :: rest) alloc =
          if address_space_is_used offset size alloc then scanClaims rest alloc
          else
            (let next := scanClaims rest ((offset, size) :: alloc)
             if complete then (next.1, (offset, size) :: next.2) else next)
          from rfl, if_pos hused]
        exact ih alloc hpw (fun b hb c hc => hsz b hb c (by simp [hc])) hsorted2
      · have husedf : address_space_is_used offset size alloc = false := by
          simpa using hused
        have hnov : ∀ b ∈ alloc, ¬ intervalsOverlap (offset, size) b :=
          claim_not_overlap offset size alloc husedf
            (fun b hb => by
              have := hsz b hb ⟨some offset, size, complete⟩ (by simp)
              simpa using this)
        have hpw2 : List.Pairwise (fun x y => ¬ intervalsOverlap x y)
            ((offset, size) :: alloc) := List.Pairwise.cons hnov hpw
        have hsz2 : ∀ b ∈ (offset, size) :: alloc, ∀ c ∈ rest, c.size ≤ b.2 := by
          intro b hb c hc
          rcases List.mem_cons.mp hb with rfl | hb2
          · exact List.rel_of_pairwise_cons hsorted hc
          · exact hsz b hb2 c (by simp [hc])
        obtain ⟨ins, ha, he, hpwa⟩ := ih ((offset, size) :: alloc) hpw2 hsz2 hsorted2
        rw [show scanClaims (⟨some offset, size, complete⟩ :: rest) alloc =
          if address_space_is_used offset size alloc then scanClaims rest alloc
          else
            (let next := scanClaims rest ((offset, size) :: alloc)
             if complete then (next.1, (offset, size) :: next.2) else next)
          from rfl, if_neg (by simp [husedf])]
        refine ⟨ins ++ [(offset, size)], ?_, ?_, ?_⟩
        · cases complete <;> simp only [if_true, if_false, Bool.false_eq_true] <;>
            simpa [List.append_assoc] using ha
        · rw [List.reverse_append]
          cases complete
          · simp only [Bool.false_eq_true, if_false]
            exact he.trans (by simpa using
              List.Sublist.cons (offset, size) (List.Sublist.refl ins.reverse))
          · simp only [if_true]
            simpa using List.Sublist.cons₂ (offset, size) he
        · cases complete <;> simp only [if_true, if_false, Bool.false_eq_true] <;>
            exact hpwa

/-- **C5.** For every library of segments with positive sizes processed in
(size descending, occurrence descending) order and every sequence of find
results, no two intervals emitted by one scan overlap: the accepted-claim
check plus the size-descending processing order prevents any overlapping
emission. -/
theorem scan_claims_no_overlap (cands : List ScanCand)
    (hpos : ∀ c ∈ cands, 0 < c.size)
    (hsorted : List.Pairwise (fun c d => d.size ≤ c.size) cands) :
    List.Pairwise (fun x y => ¬ intervalsOverlap x y)
      (scanClaims cands []).2 := by
  obtain ⟨ins, ha, he, hpwa⟩ := scanClaims_aux cands []
    (List.Pairwise.nil) (by simp) hsorted
  rw [List.append_nil] at ha
  rw [ha] at hpwa
  have hrev : List.Pairwise (fun x y => ¬ intervalsOverlap x y) ins.reverse := by
    rw [List.pairwise_reverse]
    exact hpwa.imp (fun h hov => h ((intervalsOverlap_symm _ _).mp hov))
  exact hrev.sublist he

/-- Witness for C5: two candidates, the second overlapping the first, so
only the first is emitted. -/
theorem scan_claims_no_overlap_witness :
    List.Pairwise (fun x y => ¬ intervalsOverlap x y)
      (scanClaims [⟨some 0, 8, true⟩, ⟨some 4, 4, true⟩] []).2 :=
  scan_claims_no_overlap [⟨some 0, 8, true⟩, ⟨some 4, 4, true⟩]
    (by intro c hc
        simp only [List.mem_cons, List.not_mem_nil, or_false] at hc
        rcases hc with rfl | rfl <;> norm_num)
    (by refine List.Pairwise.cons ?_ (List.Pairwise.cons ?_ List.Pairwise.nil)
        · intro d hd
          simp only [List.mem_cons, List.not_mem_nil, or_false] at hd
          subst hd
          norm_num
        · intro d hd
          simp at hd)

/-- Witness for C4's amended claim at the concrete 12-byte object. -/
theorem calculate_object_hashes_function_sizes_witness :
    (calculate_object_hashes RK_MODULUS MIPSFamily.R3000GTE cexMap
        cexBytes).functions.map (fun f => (f.fingerprint.v0size, f.size)) =
      cexMap.text_symbols.map (fun s =>
        (specTrimmedLen (byteSlice cexBytes (s.offset - cexMap.vrom)
          ((s.offset - cexMap.vrom) + s.size)), s.size)) :=
  calculate_object_hashes_function_sizes RK_MODULUS MIPSFamily.R3000GTE cexMap
    cexBytes (by decide) (by decide)

-- C9: the EndsWithJumpTable RODATA locator (src/scan.rs) ---------------------

/-- The search-result form `RODataOffset` (`src/lib.rs`). -/
structure RODataOffset where
  offset : Nat
  size : Nat
  deriving DecidableEq, Repr

/-- The wrap modulus of release-mode `usize` arithmetic. -/
def USIZE_MOD : Nat := 2 ^ 64

/-- The scanning loop of `find_ends_with_jump_table` (`src/scan.rs`): walk
the haystack in 4-byte steps, skip the text region `[vrom_start, vrom_end)`,
and remember `(found, last_offset)` for the last word whose decoded value
lies strictly inside `(segment_start, segment_end)`.  (The source's
`last_found_jtable_addr` variable is dead and omitted.)  The source's
`(0..bytes.len()).step_by(4)` loop slices `&bytes[i..i + 4]` and panics on a
trailing partial word; the model iterates the `length / 4` complete words,
so every statement about it carries a `length % 4 = 0` hypothesis. -/
def ewjtLoop (segment_start segment_end vrom_start vrom_end : Nat)
    (fam : MIPSFamily) (bytes : List Nat) : Bool × Nat :=
  (List.range (bytes.length / 4)).foldl
    (fun st j =>
      let i := 4 * j
      if vrom_start ≤ i ∧ i < vrom_end then st
      else
        let addr := read_word ((bytes.drop i).take 4) fam
        if segment_start < addr ∧ addr < segment_end then (true, i) else st)
    (false, 0)

/-- `find_ends_with_jump_table` (`src/scan.rs`): after the loop, compute
`last_offset - rodata_size + 4` with release-mode wrapping `usize`
arithmetic, and answer the block only when a word was found and the offset
is strictly positive and inside the haystack. -/
def find_ends_with_jump_table (segment_start segment_end vrom_start vrom_end
    rodata_size : Nat) (fam : MIPSFamily) (bytes : List Nat) :
    Option RODataOffset :=
  let st := ewjtLoop segment_start segment_end vrom_start vrom_end fam bytes
  let rodata_offset :=
    ((st.2 + (USIZE_MOD - rodata_size % USIZE_MOD)) % USIZE_MOD + 4) % USIZE_MOD
  if st.1 ∧ 0 < rodata_offset ∧ rodata_offset < bytes.length then
    some { offset := rodata_offset, size := rodata_size }
  else none

/-- The scanning loop of `find_only_jump_tables` (`src/scan.rs`), with the
in-loop early `return` modelled by a result component that, once set, is
kept.  State: `(result, found_segment_addr, range_start)`. -/
def fojtLoop (segment_start segment_end vrom_start vrom_end rodata_size : Nat)
    (fam : MIPSFamily) (bytes : List Nat) :
    Option RODataOffset × Bool × Nat :=
  (List.range (bytes.length / 4)).foldl
    (fun st j =>
      match st with
      | (some r, f, rs) => (some r, f, rs)
      | (none, found, range_start) =>
        let i := 4 * j
        if vrom_start ≤ i ∧ i < vrom_end then (none, found, range_start)
        else
          let addr := read_word ((bytes.drop i).take 4) fam
          if segment_start < addr ∧ addr < segment_end then
            if found then (none, found, range_start) else (none, true, i)
          else if found then
            if i - range_start = rodata_size then
              (some { offset := range_start, size := rodata_size }, false, range_start)
            else (none, false, range_start)
          else (none, false, range_start))
    (none, false, 0)

/-- `find_only_jump_tables` (`src/scan.rs`). -/
def find_only_jump_tables (segment_start segment_end vrom_start vrom_end
    rodata_size : Nat) (fam : MIPSFamily) (bytes : List Nat) :
    Option RODataOffset :=
  (fojtLoop segment_start segment_end vrom_start vrom_end rodata_size fam bytes).1

/-- `find_rodata` (`src/scan.rs`): dispatch on the signature kind; only
`OnlyJumpTables` and `EndsWithJumpTable` are located, everything else (and a
missing signature or missing `vram_start`) reports absent. -/
def find_rodata (rodata : Option RODataSignature) (vram_start : Option Nat)
    (segment_offset segment_size : Nat) (fam : MIPSFamily) (bytes : List Nat) :
    Option RODataOffset :=
  match rodata with
  | none => none
  | some rodata =>
    match vram_start with
    | none => none
    | some vram_start =>
      let segment_start := vram_start + segment_offset
      let segment_end := segment_start + segment_size
      match rodata.rodataType with
      | RODataSignatureType.OnlyJumpTables =>
          find_only_jump_tables segment_start segment_end segment_offset
            (segment_offset + segment_size) rodata.size fam bytes
      | RODataSignatureType.EndsWithJumpTable =>
          find_ends_with_jump_table segment_start segment_end segment_offset
            (segment_offset + segment_size) rodata.size fam bytes
      | _ => none

/-- Spec-side description: the byte offset of the last word of the haystack,
outside the text region, whose decoded value lies strictly inside
`(segment_start, segment_end)`. -/
def lastJTOffset (segment_start segment_end vrom_start vrom_end : Nat)
    (fam : MIPSFamily) (bytes : List Nat) : Option Nat :=
  ((List.range (bytes.length / 4)).reverse.find? (fun j =>
      !(decide (vrom_start ≤ 4 * j) && decide (4 * j < vrom_end)) &&
      (decide (segment_start < read_word ((bytes.drop (4 * j)).take 4) fam) &&
       decide (read_word ((bytes.drop (4 * j)).take 4) fam < segment_end)))).map
    (fun j => 4 * j)

theorem ewjt_fold_spec (ss se vs ve : Nat) (fam : MIPSFamily) (bytes : List Nat) :
    ∀ m : Nat,
      (List.range m).foldl
          (fun st j =>
            let i := 4 * j
            if vs ≤ i ∧ i < ve then st
            else
              let addr := read_word ((bytes.drop i).take 4) fam
              if ss < addr ∧ addr < se then (true, i) else st)
          (false, 0) =
        match (List.range m).reverse.find? (fun j =>
            !(decide (vs ≤ 4 * j) && decide (4 * j < ve)) &&
            (decide (ss < read_word ((bytes.drop (4 * j)).take 4) fam) &&
             decide (read_word ((bytes.drop (4 * j)).take 4) fam < se))) with
        | some j => (true, 4 * j)
        | none => (false, 0) := by
  intro m
  induction m with
  | zero => rfl
  | succ m ih =>
    rw [List.range_succ, List.foldl_append, List.reverse_append]
    simp only [List.foldl_cons, List.foldl_nil, List.reverse_cons,
      List.reverse_nil, List.nil_append, List.cons_append, List.find?_cons]
    by_cases hskip : vs ≤ 4 * m ∧ 4 * m < ve
    · have hpred : (!(decide (vs ≤ 4 * m) && decide (4 * m < ve)) &&
          (decide (ss < read_word ((bytes.drop (4 * m)).take 4) fam) &&
           decide (read_word ((bytes.drop (4 * m)).take 4) fam < se))) = false := by
        simp [hskip.1, hskip.2]
      rw [hpred]
      simp only [if_pos hskip]
      exact ih
    · by_cases hin : ss < read_word ((bytes.drop (4 * m)).take 4) fam ∧
          read_word ((bytes.drop (4 * m)).take 4) fam < se
      · have hpred : (!(decide (vs ≤ 4 * m) && decide (4 * m < ve)) &&
            (decide (ss < read_word ((bytes.drop (4 * m)).take 4) fam) &&
             decide (read_word ((bytes.drop (4 * m)).take 4) fam < se))) = true := by
          simp only [Bool.and_eq_true, Bool.not_eq_true', Bool.and_eq_false_iff,
            decide_eq_false_iff_not, decide_eq_true_eq]
          refine ⟨?_, hin.1, hin.2⟩
          by_cases h1 : vs ≤ 4 * m
          · right; simpa using fun hcon => hskip ⟨h1, hcon⟩
          · left; simpa using h1
        rw [hpred]
        simp [if_neg hskip, if_pos hin]
      · have hpred : (!(decide (vs ≤ 4 * m) && decide (4 * m < ve)) &&
            (decide (ss < read_word ((bytes.drop (4 * m)).take 4) fam) &&
             decide (read_word ((bytes.drop (4 * m)).take 4) fam < se))) = false := by
          simp only [Bool.and_eq_false_iff, Bool.not_eq_false',
            decide_eq_true_eq, decide_eq_false_iff_not]
          right
          by_cases h1 : ss < read_word ((bytes.drop (4 * m)).take 4) fam
          · right; intro hcon; exact hin ⟨h1, hcon⟩
          · left; exact h1
        rw [hpred]
        simp only [if_neg hskip, if_neg hin]
        exact ih

theorem ewjtLoop_eq_lastJTOffset (ss se vs ve : Nat) (fam : MIPSFamily)
    (bytes : List Nat) :
    ewjtLoop ss se vs ve fam bytes =
      match lastJTOffset ss se vs ve fam bytes with
      | some L => (true, L)
      | none => (false, 0) := by
  unfold ewjtLoop lastJTOffset
  rw [ewjt_fold_spec ss se vs ve fam bytes (bytes.length / 4)]
  match (List.range (bytes.length / 4)).reverse.find? (fun j =>
      !(decide (vs ≤ 4 * j) && decide (4 * j < ve)) &&
      (decide (ss < read_word ((bytes.drop (4 * j)).take 4) fam) &&
       decide (read_word ((bytes.drop (4 * j)).take 4) fam < se))) with
  | some j => rfl
  | none => rfl

/-- **C9 (amended).** For every haystack and every `EndsWithJumpTable`
signature (with sane sizes below `2^63`), the locator returns
`some ⟨last_word_offset - rodata.size + 4, rodata.size⟩` exactly when a word
outside the text region decodes into `(segment_start, segment_end)`, the
subtraction does not underflow, and the computed offset is **strictly
positive** and less than the haystack length; in every other case — no such
word, an underflowing subtraction, an offset of 0, or an offset past the end
— it reports the rodata as absent without failing (release-mode wrapping
arithmetic).  The claim as stated admits offset 0 as "inside the haystack";
the code rejects it: see the counterexample.  The alignment hypothesis
restricts to 4-aligned haystacks: on a misaligned length the source's
`&bytes[i..i + 4]` slice of the trailing partial word panics. -/
theorem find_rodata_ends_with_spec (rsig : RODataSignature)
    (vram_start segment_offset segment_size : Nat) (fam : MIPSFamily)
    (bytes : List Nat) (r : RODataOffset)
    (hty : rsig.rodataType = RODataSignatureType.EndsWithJumpTable)
    (h4 : bytes.length % 4 = 0)
    (hlen : bytes.length ≤ 2 ^ 63) (hrs : rsig.size ≤ 2 ^ 63) :
    find_rodata (some rsig) (some vram_start) segment_offset segment_size fam
        bytes = some r ↔
      ∃ L, lastJTOffset (vram_start + segment_offset)
          (vram_start + segment_offset + segment_size) segment_offset
          (segment_offset + segment_size) fam bytes = some L ∧
        rsig.size ≤ L + 4 ∧ 0 < L + 4 - rsig.size ∧
        L + 4 - rsig.size < bytes.length ∧
        r = { offset := L + 4 - rsig.size, size := rsig.size } := by
  have hU : USIZE_MOD = 18446744073709551616 := by norm_num [USIZE_MOD]
  unfold find_rodata
  simp only [hty]
  unfold find_ends_with_jump_table
  rw [ewjtLoop_eq_lastJTOffset]
  cases hL : lastJTOffset (vram_start + segment_offset)
      (vram_start + segment_offset + segment_size) segment_offset
      (segment_offset + segment_size) fam bytes with
  | none =>
    dsimp only
    rw [if_neg (by simp)]
    constructor
    · intro h
      simp at h
    · rintro ⟨L, hL2, _⟩
      simp_all
  | some L =>
    dsimp only
    have hLb : L + 4 ≤ bytes.length := by
      unfold lastJTOffset at hL
      rw [Option.map_eq_some'] at hL
      obtain ⟨j, hfind, rfl⟩ := hL
      have hj := List.mem_of_find?_eq_some hfind
      rw [List.mem_reverse, List.mem_range] at hj
      omega
    have hmod : rsig.size % USIZE_MOD = rsig.size :=
      Nat.mod_eq_of_lt (by rw [hU]; norm_num at hrs ⊢; omega)
    by_cases hcase : rsig.size ≤ L + 4
    · have hro : ((L + (USIZE_MOD - rsig.size % USIZE_MOD)) % USIZE_MOD + 4) %
          USIZE_MOD = L + 4 - rsig.size := by
        rw [hmod, hU]
        norm_num at hlen hrs
        omega
      rw [hro]
      constructor
      · intro h
        by_cases hcond : (true = true ∧ 0 < L + 4 - rsig.size ∧
            L + 4 - rsig.size < bytes.length)
        · rw [if_pos hcond] at h
          exact ⟨L, rfl, hcase, hcond.2.1, hcond.2.2, (Option.some.inj h).symm⟩
        · rw [if_neg hcond] at h
          simp at h
      · rintro ⟨L2, hL2, _, h2, h3, rfl⟩
        obtain rfl : L = L2 := Option.some.inj (hL ▸ hL2)
        rw [if_pos ⟨rfl, h2, h3⟩]
    · have hro : 2 ^ 63 ≤ ((L + (USIZE_MOD - rsig.size % USIZE_MOD)) %
          USIZE_MOD + 4) % USIZE_MOD := by
        rw [hmod, hU]
        norm_num at hlen hrs ⊢
        omega
      constructor
      · intro h
        by_cases hcond : (true = true ∧
            0 < ((L + (USIZE_MOD - rsig.size % USIZE_MOD)) % USIZE_MOD + 4) %
              USIZE_MOD ∧
            ((L + (USIZE_MOD - rsig.size % USIZE_MOD)) % USIZE_MOD + 4) %
              USIZE_MOD < bytes.length)
        · exfalso
          have := hcond.2.2
          omega
        · rw [if_neg hcond] at h
          simp at h
      · rintro ⟨L2, hL2, hc, _⟩
        obtain rfl : L = L2 := Option.some.inj (hL ▸ hL2)
        exact absurd hc hcase

/-- Witness for C9 at a concrete three-word haystack: the last jump-table
word sits at offset 4 and an 4-byte rodata block is reported at offset 4. -/
theorem find_rodata_ends_with_spec_witness :
    find_rodata (some ⟨RODataSignatureType.EndsWithJumpTable, 4⟩) (some 100) 0 4
        MIPSFamily.R3000GTE [1, 0, 0, 0, 103, 0, 0, 0, 0, 0, 0, 0] =
      some ⟨4, 4⟩ :=
  (find_rodata_ends_with_spec ⟨RODataSignatureType.EndsWithJumpTable, 4⟩
    100 0 4 MIPSFamily.R3000GTE [1, 0, 0, 0, 103, 0, 0, 0, 0, 0, 0, 0]
    ⟨4, 4⟩ rfl (by norm_num) (by norm_num) (by norm_num)).mpr
    ⟨4, by decide, by norm_num, by norm_num, by norm_num, rfl⟩

/-- Counterexample to C9 as stated: with an 8-byte `EndsWithJumpTable`
signature the last qualifying word is at offset 4, the computed offset
`4 - 8 + 4 = 0` lies inside the haystack (`0 < 12`), yet the locator answers
`none` because the code requires the offset to be strictly positive. -/
theorem find_rodata_offset_zero_counterexample :
    lastJTOffset 100 104 0 4 MIPSFamily.R3000GTE
        [1, 0, 0, 0, 103, 0, 0, 0, 0, 0, 0, 0] = some 4 ∧
    4 + 4 - 8 = 0 ∧ (0 : Nat) < 12 ∧
    find_rodata (some ⟨RODataSignatureType.EndsWithJumpTable, 8⟩) (some 100) 0 4
        MIPSFamily.R3000GTE [1, 0, 0, 0, 103, 0, 0, 0, 0, 0, 0, 0] = none := by
  refine ⟨by decide, by norm_num, by norm_num, by decide⟩

-- C8: textual round-trip of FingerprintV0 (src/fingerprint.rs) ---------------

/-- The hexadecimal/decimal digit characters Rust's formatting emits
(lowercase hex, as `{:x}` does). -/
def digitChar : Nat → Char
  | 0 => '0' | 1 => '1' | 2 => '2' | 3 => '3' | 4 => '4'
  | 5 => '5' | 6 => '6' | 7 => '7' | 8 => '8' | 9 => '9'
  | 10 => 'a' | 11 => 'b' | 12 => 'c' | 13 => 'd' | 14 => 'e' | 15 => 'f'
  | _ => '*'

/-- Rust's `format!("{}" / "{:x}", n)`: most-significant-first digits in base
`b`, with `"0"` for zero. -/
def renderNat (b n : Nat) : List Char :=
  if n = 0 then ['0'] else ((Nat.digits b n).map digitChar).reverse

/-- One digit of `u64::from_str_radix`: 0-9, a-z and A-Z are digit
candidates; the value must be below the radix. -/
def parseDigit (b : Nat) (c : Char) : Option Nat :=
  let d :=
    if 48 ≤ c.toNat ∧ c.toNat ≤ 57 then some (c.toNat - 48)
    else if 97 ≤ c.toNat ∧ c.toNat ≤ 122 then some (c.toNat - 87)
    else if 65 ≤ c.toNat ∧ c.toNat ≤ 90 then some (c.toNat - 55)
    else none
  match d with
  | some d => if d < b then some d else none
  | none => none

/-- The `u64` range bound enforced by `from_str_radix`'s checked
arithmetic. -/
def U64_SIZE : Nat := 2 ^ 64

/-- The accumulating loop of `u64::from_str_radix`: empty input is an error,
a bad digit is an error, and exceeding `u64::MAX` is an overflow error. -/
def parseNatRadix (b : Nat) (cs : List Char) : Option Nat :=
  if cs = [] then none
  else cs.foldl (fun acc c =>
    match acc with
    | none => none
    | some a =>
      match parseDigit b c with
      | some d => if a * b + d < U64_SIZE then some (a * b + d) else none
      | none => none) (some 0)

/-- `u64::from_str_radix`, including the optional leading `+` sign. -/
def from_str_radix (cs : List Char) (b : Nat) : Option Nat :=
  match cs with
  | '+' :: rest => parseNatRadix b rest
  | _ => parseNatRadix b cs

/-- `FINGERPRINT_V0_PREFIX` (`src/fingerprint.rs`) as a character list. -/
def fpV0UrnTag : List Char := "urn:decomp:match:fingerprint:0:".toList

/-- Rust's `str::split(':')`: the colon-separated fields, empty fields
included. -/
def splitColon : List Char → List (List Char)
  | [] => [[]]
  | c :: rest =>
    if c = ':' then [] :: splitColon rest
    else
      match splitColon rest with
      | [] => [[c]]
      | h :: t => (c :: h) :: t

/-- `FingerprintV0::to_string` (`src/fingerprint.rs`): the URN tag, the
decimal size, the lowercase-hex hash, and the decimal modulus when
present. -/
def fingerprintV0_to_string (f : FingerprintV0) : List Char :=
  match f.modulus with
  | some m => fpV0UrnTag ++ renderNat 10 f.size ++ [':'] ++ renderNat 16 f.hash
      ++ [':'] ++ renderNat 10 m
  | none => fpV0UrnTag ++ renderNat 10 f.size ++ [':'] ++ renderNat 16 f.hash

/-- The error kinds of `src/fingerprint.rs`. -/
inductive FingerprintErrorKind where
  | FormatError (reason : String)
  | ParseIntError
  deriving DecidableEq, Repr

/-- `FingerprintV0::from_str` (`src/fingerprint.rs`): check and strip the
URN tag, split the remainder on `:`, demand two or three fields, and parse
size (base 10), hash (base 16) and optional modulus (base 10). -/
def fingerprintV0_from_str (s : List Char) :
    Except FingerprintErrorKind FingerprintV0 :=
  if fpV0UrnTag.isPrefixOf s then
    let data := s.drop fpV0UrnTag.length
    let parts := splitColon data
    if parts.length < 2 then
      Except.error (FingerprintErrorKind.FormatError "parts: < 2")
    else if parts.length > 3 then
      Except.error (FingerprintErrorKind.FormatError "parts: > 3")
    else
      match from_str_radix (parts.getD 0 []) 10 with
      | none => Except.error FingerprintErrorKind.ParseIntError
      | some size =>
        match from_str_radix (parts.getD 1 []) 16 with
        | none => Except.error FingerprintErrorKind.ParseIntError
        | some hash =>
          if parts.length = 2 then Except.ok (FingerprintV0.new size hash)
          else
            match from_str_radix (parts.getD 2 []) 10 with
            | none => Except.error FingerprintErrorKind.ParseIntError
            | some m => Except.ok (FingerprintV0.new_with_modulus size hash m)
  else Except.error (FingerprintErrorKind.FormatError "prefix")

/-- `Fingerprint::from_str` (`src/fingerprint.rs`): version dispatch on the
URN tag, delegating to the V0 parser. -/
def fingerprint_from_str (s : List Char) :
    Except FingerprintErrorKind Fingerprint :=
  if fpV0UrnTag.isPrefixOf s then
    match fingerprintV0_from_str s with
    | Except.ok f => Except.ok (Fingerprint.V0 f)
    | Except.error e => Except.error e
  else Except.error (FingerprintErrorKind.FormatError "bad version")

theorem isPrefixOf_append (p r : List Char) : p.isPrefixOf (p ++ r) = true := by
  induction p with
  | nil => cases r <;> rfl
  | cons c p ih =>
    show ((c == c) && p.isPrefixOf (p ++ r)) = true
    simp [ih]

theorem splitColon_ne_nil (l : List Char) : splitColon l ≠ [] := by
  match l with
  | [] => simp [splitColon]
  | c :: rest =>
    unfold splitColon
    split_ifs
    · simp
    · match h : splitColon rest with
      | [] => simp
      | h2 :: t => simp

theorem splitColon_cons (c : Char) (rest : List Char) :
    splitColon (c :: rest) =
      if c = ':' then [] :: splitColon rest
      else
        match splitColon rest with
        | [] => [[c]]
        | h :: t => (c :: h) :: t := rfl

theorem splitColon_no_colon (l : List Char) (h : ':' ∉ l) :
    splitColon l = [l] := by
  induction l with
  | nil => rfl
  | cons c rest ih =>
    have hc : c ≠ ':' := fun hcon => h (by simp [hcon])
    have hrest : ':' ∉ rest := fun hcon => h (by simp [hcon])
    rw [splitColon_cons, if_neg hc, ih hrest]

theorem splitColon_append (a b : List Char) (ha : ':' ∉ a) :
    splitColon (a ++ ':' :: b) = a :: splitColon b := by
  induction a with
  | nil =>
    show splitColon (':' :: b) = [] :: splitColon b
    rw [splitColon_cons, if_pos rfl]
  | cons c a ih =>
    have hc : c ≠ ':' := fun hcon => ha (by simp [hcon])
    have ha2 : ':' ∉ a := fun hcon => ha (by simp [hcon])
    show splitColon (c :: (a ++ ':' :: b)) = (c :: a) :: splitColon b
    rw [splitColon_cons, if_neg hc, ih ha2]

theorem digitChar_ne_colon (d : Nat) (hd : d < 16) : digitChar d ≠ ':' := by
  interval_cases d <;> decide

theorem digitChar_ne_plus (d : Nat) (hd : d < 16) : digitChar d ≠ '+' := by
  interval_cases d <;> decide

theorem renderNat_no_colon (b n : Nat) (hb : 1 < b) (hb16 : b ≤ 16) :
    ':' ∉ renderNat b n := by
  unfold renderNat
  split_ifs
  · simp
  · intro hmem
    rw [List.mem_reverse, List.mem_map] at hmem
    obtain ⟨d, hd, hdc⟩ := hmem
    exact digitChar_ne_colon d (lt_of_lt_of_le (Nat.digits_lt_base hb hd) hb16) hdc

theorem parseDigit_digitChar (b d : Nat) (hd : d < b) (hd16 : d < 16) :
    parseDigit b (digitChar d) = some d := by
  interval_cases d <;>
    simp only [digitChar, parseDigit] <;>
    norm_num <;>
    exact if_pos hd

theorem foldl_parse_digits (b : Nat) (hb : 1 < b) (hb16 : b ≤ 16) :
    ∀ ds : List Nat, (∀ d ∈ ds, d < b) →
    ∀ a : Nat, a * b ^ ds.length + Nat.ofDigits b ds < U64_SIZE →
    List.foldl (fun acc c =>
        match acc with
        | none => none
        | some a =>
          match parseDigit b c with
          | some d => if a * b + d < U64_SIZE then some (a * b + d) else none
          | none => none) (some a) ((ds.map digitChar).reverse) =
      some (a * b ^ ds.length + Nat.ofDigits b ds) := by
  intro ds
  induction ds using List.reverseRecOn with
  | nil =>
    intro _ a ha
    simp [Nat.ofDigits]
  | append_singleton ds d ih =>
    intro hbnd a ha
    have hd : d < b := hbnd d (by simp)
    have hds : ∀ x ∈ ds, x < b := fun x hx => hbnd x (by simp [hx])
    have hofd : Nat.ofDigits b (ds ++ [d]) =
        Nat.ofDigits b ds + b ^ ds.length * d := by
      rw [Nat.ofDigits_append]
      simp [Nat.ofDigits]
    have hval : (a * b + d) * b ^ ds.length + Nat.ofDigits b ds =
        a * b ^ (ds ++ [d]).length + Nat.ofDigits b (ds ++ [d]) := by
      rw [hofd, List.length_append]
      simp only [List.length_cons, List.length_nil]
      ring
    have hguard : a * b + d < U64_SIZE := by
      have h1 : a * b + d ≤ (a * b + d) * b ^ ds.length := by
        have : 0 < b ^ ds.length := Nat.pos_pow_of_pos _ (by omega)
        exact Nat.le_mul_of_pos_right _ this
      omega
    rw [List.map_append, List.reverse_append]
    simp only [List.map_cons, List.map_nil, List.reverse_cons, List.reverse_nil,
      List.nil_append, List.cons_append]
    rw [List.foldl_cons]
    have hstep : (match some a with
        | none => none
        | some a =>
          match parseDigit b (digitChar d) with
          | some d => if a * b + d < U64_SIZE then some (a * b + d) else none
          | none => none) = some (a * b + d) := by
      show (match parseDigit b (digitChar d) with
        | some d2 => if a * b + d2 < U64_SIZE then some (a * b + d2) else none
        | none => none) = some (a * b + d)
      rw [parseDigit_digitChar b d hd (by omega)]
      exact if_pos hguard
    rw [hstep, ih hds (a * b + d) (by omega), hval]

theorem parseNatRadix_renderNat (b n : Nat) (hb : 1 < b) (hb16 : b ≤ 16)
    (hn : n < U64_SIZE) : parseNatRadix b (renderNat b n) = some n := by
  by_cases h0 : n = 0
  · subst h0
    have : renderNat b 0 = ['0'] := by simp [renderNat]
    rw [this]
    unfold parseNatRadix
    rw [if_neg (by simp)]
    simp only [List.foldl_cons, List.foldl_nil]
    have h0p : parseDigit b '0' = some 0 := parseDigit_digitChar b 0 (by omega) (by omega)
    rw [h0p]
    show (if 0 * b + 0 < U64_SIZE then some (0 * b + 0) else none) = some 0
    rw [if_pos (by unfold U64_SIZE; norm_num)]
    simp
  · have hrender : renderNat b n = ((Nat.digits b n).map digitChar).reverse := by
      simp [renderNat, h0]
    rw [hrender]
    unfold parseNatRadix
    have hne : ((Nat.digits b n).map digitChar).reverse ≠ [] := by
      simp [Nat.digits_ne_nil_iff_ne_zero.mpr h0]
    rw [if_neg hne]
    have := foldl_parse_digits b hb hb16 (Nat.digits b n)
      (fun d hd => Nat.digits_lt_base hb hd) 0
      (by rw [Nat.ofDigits_digits]; simpa using hn)
    rw [this]
    rw [Nat.ofDigits_digits]
    simp

theorem from_str_radix_cons_ne_plus (b : Nat) (c : Char) (rest : List Char)
    (h : c ≠ '+') : from_str_radix (c :: rest) b = parseNatRadix b (c :: rest) := by
  unfold from_str_radix
  split <;> simp_all

theorem from_str_radix_renderNat (b n : Nat) (hb : 1 < b) (hb16 : b ≤ 16)
    (hn : n < U64_SIZE) : from_str_radix (renderNat b n) b = some n := by
  have hhead : ∃ c rest, renderNat b n = c :: rest ∧ c ≠ '+' := by
    by_cases h0 : n = 0
    · exact ⟨'0', [], by simp [renderNat, h0], by decide⟩
    · have hrender : renderNat b n = ((Nat.digits b n).map digitChar).reverse := by
        simp [renderNat, h0]
      have hne : ((Nat.digits b n).map digitChar).reverse ≠ [] := by
        simp [Nat.digits_ne_nil_iff_ne_zero.mpr h0]
      match hrev : ((Nat.digits b n).map digitChar).reverse with
      | [] => exact absurd hrev hne
      | c :: rest =>
        refine ⟨c, rest, by rw [hrender, hrev], ?_⟩
        have hc : c ∈ (Nat.digits b n).map digitChar := by
          rw [← List.mem_reverse, hrev]
          simp
        rw [List.mem_map] at hc
        obtain ⟨d, hd, rfl⟩ := hc
        exact digitChar_ne_plus d (lt_of_lt_of_le (Nat.digits_lt_base hb hd) hb16)
  obtain ⟨c, rest, heq, hnp⟩ := hhead
  rw [heq, from_str_radix_cons_ne_plus b c rest hnp, ← heq]
  exact parseNatRadix_renderNat b n hb hb16 hn

/-- **C8.** For every valid `FingerprintV0` value — a `u64`-ranged triple
whose explicit modulus, when present, differs from the default
`0xFFFFFFEF` — parsing the rendered textual form returns exactly the same
value: `Fingerprint::from_str(f.to_string()) == Ok(Fingerprint::V0(f))`. -/
theorem fingerprint_roundtrip (f : FingerprintV0)
    (hsize : f.size < U64_SIZE) (hhash : f.hash < U64_SIZE)
    (hmod : ∀ m, f.modulus = some m → m < U64_SIZE ∧ m ≠ MODULUS_V0) :
    fingerprint_from_str (fingerprintV0_to_string f) =
      Except.ok (Fingerprint.V0 f) := by
  obtain ⟨size, hash, modulus⟩ := f
  simp only at hsize hhash hmod
  have hncs : ':' ∉ renderNat 10 size := renderNat_no_colon 10 size (by omega) (by omega)
  have hnch : ':' ∉ renderNat 16 hash := renderNat_no_colon 16 hash (by omega) (by omega)
  have hp1 : from_str_radix (renderNat 10 size) 10 = some size :=
    from_str_radix_renderNat 10 size (by omega) (by omega) hsize
  have hp2 : from_str_radix (renderNat 16 hash) 16 = some hash :=
    from_str_radix_renderNat 16 hash (by omega) (by omega) hhash
  cases modulus with
  | none =>
    have hassoc : fingerprintV0_to_string ⟨size, hash, none⟩ =
        fpV0UrnTag ++ (renderNat 10 size ++ ':' :: renderNat 16 hash) := by
      show fpV0UrnTag ++ renderNat 10 size ++ [':'] ++ renderNat 16 hash = _
      simp [List.append_assoc]
    rw [hassoc]
    have hpre := isPrefixOf_append fpV0UrnTag
      (renderNat 10 size ++ ':' :: renderNat 16 hash)
    have hdrop := List.drop_left fpV0UrnTag
      (renderNat 10 size ++ ':' :: renderNat 16 hash)
    have hsplit : splitColon (renderNat 10 size ++ ':' :: renderNat 16 hash) =
        [renderNat 10 size, renderNat 16 hash] := by
      rw [splitColon_append _ _ hncs, splitColon_no_colon _ hnch]
    simp [fingerprint_from_str, fingerprintV0_from_str, hpre, hdrop, hsplit,
      hp1, hp2, FingerprintV0.new]
  | some m =>
    obtain ⟨hm64, hmdef⟩ := hmod m rfl
    have hp3 : from_str_radix (renderNat 10 m) 10 = some m :=
      from_str_radix_renderNat 10 m (by omega) (by omega) hm64
    have hncm : ':' ∉ renderNat 10 m := renderNat_no_colon 10 m (by omega) (by omega)
    have hassoc : fingerprintV0_to_string ⟨size, hash, some m⟩ =
        fpV0UrnTag ++ (renderNat 10 size ++ ':' ::
          (renderNat 16 hash ++ ':' :: renderNat 10 m)) := by
      show fpV0UrnTag ++ renderNat 10 size ++ [':'] ++ renderNat 16 hash ++ [':'] ++
        renderNat 10 m = _
      simp [List.append_assoc]
    rw [hassoc]
    have hpre := isPrefixOf_append fpV0UrnTag
      (renderNat 10 size ++ ':' :: (renderNat 16 hash ++ ':' :: renderNat 10 m))
    have hdrop := List.drop_left fpV0UrnTag
      (renderNat 10 size ++ ':' :: (renderNat 16 hash ++ ':' :: renderNat 10 m))
    have hsplit : splitColon (renderNat 10 size ++ ':' ::
        (renderNat 16 hash ++ ':' :: renderNat 10 m)) =
        [renderNat 10 size, renderNat 16 hash, renderNat 10 m] := by
      rw [splitColon_append _ _ hncs, splitColon_append _ _ hnch,
        splitColon_no_colon _ hncm]
    simp [fingerprint_from_str, fingerprintV0_from_str, hpre, hdrop, hsplit,
      hp1, hp2, hp3, FingerprintV0.new_with_modulus, hmdef]

/-- Witness for C8 at the spec's §8 example `FingerprintV0(1, 10, 3)`. -/
theorem fingerprint_roundtrip_witness :
    fingerprint_from_str (fingerprintV0_to_string ⟨1, 10, some 3⟩) =
      Except.ok (Fingerprint.V0 ⟨1, 10, some 3⟩) :=
  fingerprint_roundtrip ⟨1, 10, some 3⟩ (by norm_num [U64_SIZE])
    (by norm_num [U64_SIZE])
    (by intro m hm
        simp only [Option.some.injEq] at hm
        subst hm
        norm_num [U64_SIZE, MODULUS_V0])
